import Mathlib

/-!
Verification development for the `go-cdb` constant key/value database.

The model is a shallow embedding of the Go sources: the backing medium is a
`List Nat` of bytes, 32-bit machine arithmetic is `Nat` with explicit
`% 2^32` where the Go code converts to `uint32`, and fallible operations
return `Except`.  The hash function (package `fasthash`) and SHA-256 are
external libraries, so both are passed as parameters: a `Hasher` standing
for the Go `func([]byte) uint32`, and `sha : List Nat → List Nat` standing
for the SHA-256 digest (with `(sha s).length = 32` assumed where needed).
-/

namespace GoCdb

/-- `math.MaxUint32`, the largest value of a Go `uint32`. -/
def maxUint32 : Nat := 4294967295

/-- The modulus of 32-bit unsigned arithmetic (`2^32`). -/
def u32 : Nat := 4294967296

/-- `indexSize = 256 * 8`: the byte size of the 256-entry directory kept at
the head of the file. -/
def indexSize : Nat := 2048

/-- The abstract byte-key hash function, standing for Go's
`func(b []byte) uint32`. -/
def Hasher : Type := List Nat → Nat

/-- Error values surfaced by the embedded operations.  `tooMuchData` is
`ErrTooMuchData`; `tooSmall` and `checksumMismatch` are the two corruption
errors produced while opening a database. -/
inductive DBError where
  | tooMuchData
  | tooSmall
  | checksumMismatch
deriving DecidableEq, Repr

/-- In-memory hash entry (`type entry struct { hash, offset uint32 }`). -/
structure entry where
  hash : Nat
  offset : Nat
deriving DecidableEq, Repr

instance : Inhabited entry := ⟨⟨0, 0⟩⟩

/-- One directory descriptor (`type table struct { offset, length uint32 }`). -/
structure table where
  offset : Nat
  length : Nat
deriving DecidableEq, Repr

instance : Inhabited table := ⟨⟨0, 0⟩⟩

/-- The four little-endian bytes of `x` as a `uint32`. -/
def putU32LE (x : Nat) : List Nat :=
  [x % 256, x / 256 % 256, x / 65536 % 256, x / 16777216 % 256]

/-- Modelled from the spec: `writeTuple` belongs to this repository's binary
codec but its definition is not among the provided files; per the spec
(§4.2) it writes a pair of `u32` as 8 little-endian bytes. -/
def writeTuple (a b : Nat) : List Nat := putU32LE a ++ putU32LE b

/-- Byte of `f` at absolute position `i` (0 past the end; a read past the
end would be an I/O error in Go, which the claims exclude). -/
def byteAt (f : List Nat) (i : Nat) : Nat := (f.drop i).headD 0

/-- Little-endian `u32` decoded from `f` at absolute position `off`. -/
def getU32LE (f : List Nat) (off : Nat) : Nat :=
  byteAt f off + 256 * byteAt f (off + 1) + 65536 * byteAt f (off + 2) +
    16777216 * byteAt f (off + 3)

/-- Modelled from the spec: `readTuple` belongs to this repository's binary
codec but its definition is not among the provided files; per the spec
(§4.2) it reads a pair of `u32` from 8 little-endian bytes at an absolute
offset. -/
def readTuple (f : List Nat) (off : Nat) : Nat × Nat :=
  (getU32LE f off, getU32LE f (off + 4))

/-- Concatenation of the byte blocks produced by `g` for each element. -/
def catMap (g : α → List Nat) : List α → List Nat
  | [] => []
  | a :: l => g a ++ catMap g l

/-- On-disk form of one record:
`[key-length:u32][value-length:u32][key][value]`. -/
def recordBytes (k v : List Nat) : List Nat :=
  writeTuple k.length v.length ++ k ++ v

/-- Build-phase state of `Writer`: the 256 per-bucket entry lists, the
record bytes appended after the 2048-byte directory placeholder, the
running absolute offset (`bufferedOffset`, which starts at `indexSize`)
and the reserved footer estimate (`estimatedFooterSize`). -/
structure Writer where
  entries : List (List entry)
  data : List Nat
  bufferedOffset : Nat
  estimatedFooterSize : Nat
deriving Repr

/-- State created by `NewWriter`: 256 empty buckets and a 2048-byte
placeholder already written (so the offset starts at `indexSize`). -/
def newWriter : Writer :=
  ⟨List.replicate 256 [], [], indexSize, 0⟩

/-- `Writer.Put`: guard the projected size, record the hash entry in bucket
`hash & 0xff`, append the record bytes, and advance the counters. -/
def Writer.Put (h : Hasher) (w : Writer) (key value : List Nat) :
    Except DBError Writer :=
  let entrySize := 8 + key.length + value.length
  if w.bufferedOffset + entrySize + w.estimatedFooterSize + 16 > maxUint32 then
    .error .tooMuchData
  else
    let hsh := h key
    let t := hsh % 256
    let e : entry := ⟨hsh, w.bufferedOffset % u32⟩
    .ok { entries := w.entries.set t (w.entries.getD t [] ++ [e])
          data := w.data ++ recordBytes key value
          bufferedOffset := w.bufferedOffset + entrySize
          estimatedFooterSize := w.estimatedFooterSize + 16 }

/-- Run a whole sequence of `Put` calls against a fresh writer. -/
def putsAll (h : Hasher) (ps : List (List Nat × List Nat)) :
    Except DBError Writer :=
  ps.foldlM (fun w kv => Writer.Put h w kv.1 kv.2) newWriter

/-- The probe of `finalize`'s placement loop: starting from `slot`, walk
`(slot+1) % m` until a slot whose stored hash is 0 is found.  The Go loop
is unbounded (it would diverge if every slot had a nonzero hash); fuel `m`
covers one full revolution, which always suffices because the table is at
most half full. -/
def findSlot (sorted : List entry) (m : Nat) : Nat → Nat → Option Nat
  | _, 0 => none
  | slot, fuel + 1 =>
    if (sorted.getD slot default).hash = 0 then some slot
    else findSlot sorted m ((slot + 1) % m) fuel

/-- Body of the placement loop of `finalize`: place one entry at the probe
position `findSlot` selects starting from `(hash >> 8) % m`. -/
def placeStep (m : Nat) (sorted : List entry) (e : entry) : List entry :=
  match findSlot sorted m ((e.hash >>> 8) % m) m with
  | some s => sorted.set s e
  | none => sorted

/-- The sub-table construction of `finalize` for one bucket: `m` slots,
all initially zero, each entry placed in original insertion order at the
first probe position whose stored hash is 0. -/
def placeEntries (m : Nat) (es : List entry) : List entry :=
  es.foldl (placeStep m) (List.replicate m default)

/-- Serialize the slots of one placed sub-table, in array order, tracking
the running offset; after each 8-byte pair the offset is checked against
`math.MaxUint32` exactly as in `finalize`. -/
def writeSlots (off : Nat) : List entry → Except DBError (Nat × List Nat)
  | [] => .ok (off, [])
  | e :: rest =>
    if off + 8 > maxUint32 then .error .tooMuchData
    else
      match writeSlots (off + 8) rest with
      | .error er => .error er
      | .ok (off', bs) => .ok (off', writeTuple e.hash e.offset ++ bs)

/-- The main loop of `finalize`: process the buckets in ascending order,
recording for each one a directory descriptor whose offset is the current
end of file, then appending the serialized sub-table. -/
def finalizeBuckets : List (List entry) → Nat →
    Except DBError (List table × Nat × List Nat)
  | [], off => .ok ([], off, [])
  | b :: rest, off =>
    let m := (2 * b.length) % u32
    let t : table := ⟨off % u32, m⟩
    match writeSlots off (placeEntries m b) with
    | .error er => .error er
    | .ok (off', bs) =>
      match finalizeBuckets rest off' with
      | .error er => .error er
      | .ok (ts, off'', bs') => .ok (t :: ts, off'', bs ++ bs')

/-- The 2048 directory bytes: 256 `(offset, length)` pairs in bucket
order. -/
def serializeIndex (ts : List table) : List Nat :=
  catMap (fun t => writeTuple t.offset t.length) ts

/-- `Writer.finalize`: write the 256 sub-tables after the records,
overwrite the leading placeholder with the directory, and append the
digest of everything written so far.  Returns the in-memory directory and
the final file bytes. -/
def Writer.finalize (sha : List Nat → List Nat) (w : Writer) :
    Except DBError (List table × List Nat) :=
  match finalizeBuckets w.entries w.bufferedOffset with
  | .error er => .error er
  | .ok (ts, _, subBytes) =>
    let content := serializeIndex ts ++ w.data ++ subBytes
    .ok (ts, content ++ sha content)

/-- State of a writer together with its `sync.Once` finalize guard: `fin`
holds the stored outcome of the single `finalize` run, if it has
happened. -/
structure WriterSt where
  w : Writer
  fin : Option (Except DBError (List table × List Nat))
deriving Repr

/-- One call of `Close` or `Freeze` as it affects the writer state: both
run `finalize` through the shared `finalizeOnce` guard, so the first call
stores the result and every later call leaves the state untouched. -/
def closeStep (sha : List Nat → List Nat) (st : WriterSt) : WriterSt :=
  match st.fin with
  | some _ => st
  | none => ⟨st.w, some (st.w.finalize sha)⟩

/-- Read-phase state: the backing bytes and the in-memory directory. -/
structure CDB where
  reader : List Nat
  index : List table

/-- `readIndex`: decode the 256 directory descriptors from the head of the
file. -/
def readIndex (f : List Nat) : List table :=
  (List.range 256).map fun i =>
    ⟨(readTuple f (8 * i)).1, (readTuple f (8 * i)).2⟩

/-- `CDB.getValueAt`: check the stored key length, then the key bytes, and
return the value on a match. -/
def CDB.getValueAt (cdb : CDB) (offset : Nat) (expectedKey : List Nat) :
    Option (List Nat) :=
  let kv := readTuple cdb.reader offset
  if kv.1 ≠ expectedKey.length then none
  else
    let buf := (cdb.reader.drop ((offset + 8) % u32)).take (kv.1 + kv.2)
    if buf.take kv.1 ≠ expectedKey then none
    else some (buf.drop kv.1)

/-- The probe loop of `CDB.Get`.  `some r` means the Go loop finished with
result `r`; `none` means the fuel ran out (the Go loop would still be
running).  Fuel `t.length` covers exactly one full revolution, after which
the Go loop stops anyway because the slot index returns to `start`. -/
def CDB.getLoop (cdb : CDB) (t : table) (hsh : Nat) (key : List Nat)
    (start : Nat) : Nat → Nat → Option (Option (List Nat))
  | _, 0 => none
  | slot, fuel + 1 =>
    let p := readTuple cdb.reader ((t.offset + 8 * slot) % u32)
    if p.1 = 0 then some none
    else
      match (if p.1 = hsh then cdb.getValueAt p.2 key else none) with
      | some v => some (some v)
      | none =>
        let slot' := (slot + 1) % t.length
        if slot' = start then some none
        else CDB.getLoop cdb t hsh key start slot' fuel

/-- `CDB.Get`: hash the key, look up the bucket's directory descriptor,
and probe the sub-table starting at `(hash >> 8) mod length`. -/
def CDB.Get (h : Hasher) (cdb : CDB) (key : List Nat) : Option (List Nat) :=
  let hsh := h key
  let t := cdb.index.getD (hsh % 256) default
  if t.length = 0 then none
  else
    let start := (hsh >>> 8) % t.length
    match cdb.getLoop t hsh key start start t.length with
    | some r => r
    | none => none

/-- `verifyChecksum`: reject files smaller than 2080 bytes outright, then
recompute the digest of everything but the 32-byte trailer and compare. -/
def verifyChecksum (sha : List Nat → List Nat) (f : List Nat) :
    Except DBError Unit :=
  if f.length < indexSize + 32 then .error .tooSmall
  else
    let datasz := f.length - 32
    if f.drop datasz = sha (f.take datasz) then .ok ()
    else .error .checksumMismatch

/-- `Open`: verify the checksum, then build the reader by loading the
directory.  No `CDB` value exists unless the verification passed. -/
def openCDB (sha : List Nat → List Nat) (f : List Nat) :
    Except DBError CDB :=
  match verifyChecksum sha f with
  | .error er => .error er
  | .ok _ => .ok ⟨f, readIndex f⟩

/-- Whole build/reopen/lookup pipeline, used to state end-to-end facts:
run the puts, finalize, reopen the produced bytes, and look `k` up. -/
def roundTrip (h : Hasher) (sha : List Nat → List Nat)
    (ps : List (List Nat × List Nat)) (k : List Nat) :
    Except DBError (Option (List Nat)) :=
  match putsAll h ps with
  | .error er => .error er
  | .ok w =>
    match w.finalize sha with
    | .error er => .error er
    | .ok (_, f) =>
      match openCDB sha f with
      | .error er => .error er
      | .ok c => .ok (c.Get h k)

/-- Total number of entries across a bucket list. -/
def totalLen : List (List entry) → Nat
  | [] => 0
  | b :: rest => b.length + totalLen rest

/-- The directory descriptors `finalize` produces when every size check
passes: bucket `i` gets the running end-of-file offset and length `2nᵢ`,
and the offset advances by `8 · 2nᵢ` bytes. -/
def tablesFrom (off : Nat) : List (List entry) → List table
  | [] => []
  | b :: rest => ⟨off, 2 * b.length⟩ :: tablesFrom (off + 16 * b.length) rest

/-- Serialized bytes of one placed sub-table, slot by slot in array
order. -/
def subtableBytes (b : List entry) : List Nat :=
  catMap (fun e => writeTuple e.hash e.offset) (placeEntries (2 * b.length) b)

/-- The concatenation of all serialized sub-tables in bucket order. -/
def subtablesBytes : List (List entry) → List Nat
  | [] => []
  | b :: rest => subtableBytes b ++ subtablesBytes rest

/-- Follows the spec's words (§4.4 step 4): the slot at which an entry is
placed is the first probe position `(start + j) % m`, `j` minimal, whose
stored hash is zero (i.e. the first empty slot, probing linearly forward
past occupied slots). -/
def specFirstEmpty (sorted : List entry) (m start : Nat) : Option Nat :=
  ((List.range m).find? fun j =>
      (sorted.getD ((start + j) % m) default).hash == 0).map
    fun j => (start + j) % m

/-- Follows the spec's words (§4.4 steps 1, 3, 4): allocate `m` slots, all
initially empty, and place each entry, in original insertion order, at the
first empty slot of its probe sequence. -/
def specPlace (m : Nat) (es : List entry) : List entry :=
  es.foldl
    (fun sorted e =>
      match specFirstEmpty sorted m ((e.hash >>> 8) % m) with
      | some s => sorted.set s e
      | none => sorted)
    (List.replicate m default)

/-- Number of loop iterations `CDB.getLoop` still performs from `slot`
before the advancing index returns to `start` (one full revolution from
`start` is `len` iterations). -/
def probeDist (len start slot : Nat) : Nat :=
  if slot < start then start - slot else start + len - slot

/-- Number of slots of a sub-table whose stored hash is nonzero. -/
def countNZ (sorted : List entry) : Nat :=
  (sorted.filter fun e => e.hash ≠ 0).length


/-- A stand-in digest used to instantiate the `sha` parameter on concrete
examples: a constant 32-byte block (the development never relies on any
property of SHA-256 beyond its output length). -/
def shaZ : List Nat → List Nat := fun _ => List.replicate 32 0

/-- A concrete 32-bit hash function for examples (range `[1, 251]`, so it
never produces the reserved value 0). -/
def hW : Hasher := fun bs => bs.headD 0 % 251 + 1

/-- A (legal) hash function that maps every key to 0, exercising the
empty-slot sentinel collision. -/
def hZero : Hasher := fun _ => 0

/-- Example put sequence: the single record `[5] ↦ [7]`. -/
def psW : List (List Nat × List Nat) := [([5], [7])]

/-- Writer state after running `psW` through `hW`. -/
def wW : Writer :=
  match putsAll hW psW with
  | .ok w => w
  | .error _ => newWriter

/-- Writer state after putting `[1] ↦ [2]` under the all-zero hash. -/
def wZ : Writer :=
  match putsAll hZero [([1], [2])] with
  | .ok w => w
  | .error _ => newWriter

/-- The bytes of record `(k, v)` start at absolute file offset `off`,
which lies in the data region behind the 2048-byte directory. -/
def RecordAt (data : List Nat) (off : Nat) (k v : List Nat) : Prop :=
  indexSize ≤ off ∧ ∃ r, data.drop (off - indexSize) = recordBytes k v ++ r

/-- Full invariant tying a writer state to the sequence of key/value pairs
that produced it through successful `Put` calls. -/
structure Inv (h : Hasher) (ps : List (List Nat × List Nat)) (w : Writer) :
    Prop where
  elen : w.entries.length = 256
  off : w.bufferedOffset = indexSize + w.data.length
  foot : w.estimatedFooterSize = 16 * totalLen w.entries
  bound : w.bufferedOffset + w.estimatedFooterSize ≤ maxUint32
  sound : ∀ b, ∀ e ∈ w.entries.getD b [],
    ∃ kv ∈ ps, e.hash = h kv.1 ∧ h kv.1 % 256 = b ∧
      RecordAt w.data e.offset kv.1 kv.2
  complete : ∀ kv ∈ ps,
    ∃ e ∈ w.entries.getD (h kv.1 % 256) [],
      e.hash = h kv.1 ∧ RecordAt w.data e.offset kv.1 kv.2

/-- Everything `finalize` writes before the checksum trailer: directory,
records, sub-tables. -/
def contentBytes (w : Writer) : List Nat :=
  serializeIndex (tablesFrom w.bufferedOffset w.entries) ++ w.data ++
    subtablesBytes w.entries


/-- A value one byte short of the largest `Put` the guard admits as the
first record: `2048 + 8 + |v| + 0 + 16 = u32::MAX` exactly. -/
def vlarge : List Nat := List.replicate 4294965223 0

/-- Put sequence consisting of the single maximal record. -/
def ps5 : List (List Nat × List Nat) := [([], vlarge)]

/-- The writer state `ps5` produces (spelled out; `hW [] = 1`). -/
def w5 : Writer :=
  ⟨(List.replicate 256 []).set 1 [⟨1, 2048⟩], recordBytes [] vlarge,
    4294967279, 16⟩

/-! ### Byte-level lemmas about the binary codec -/

theorem byteAt_cons_succ (a : Nat) (l : List Nat) (i : Nat) :
    byteAt (a :: l) (i + 1) = byteAt l i := rfl

theorem byteAt_append_right (a b : List Nat) (i : Nat) :
    byteAt (a ++ b) (a.length + i) = byteAt b i := by
  induction a with
  | nil => simp
  | cons c a ih =>
      simpa [List.length_cons, Nat.succ_add] using ih

theorem byteAt_append_left (a b : List Nat) (i : Nat) (h : i < a.length) :
    byteAt (a ++ b) i = byteAt a i := by
  induction a generalizing i with
  | nil => simp at h
  | cons c a ih =>
      cases i with
      | zero => rfl
      | succ i =>
          have := ih i (by simpa using h)
          simpa [byteAt_cons_succ] using this

theorem getU32LE_append_right (a b : List Nat) (i : Nat) :
    getU32LE (a ++ b) (a.length + i) = getU32LE b i := by
  unfold getU32LE
  rw [Nat.add_assoc a.length i 1, Nat.add_assoc a.length i 2,
    Nat.add_assoc a.length i 3, byteAt_append_right, byteAt_append_right,
    byteAt_append_right, byteAt_append_right]

theorem getU32LE_append_left (a b : List Nat) (i : Nat) (h : i + 4 ≤ a.length) :
    getU32LE (a ++ b) i = getU32LE a i := by
  unfold getU32LE
  rw [byteAt_append_left a b i (by omega),
    byteAt_append_left a b (i + 1) (by omega),
    byteAt_append_left a b (i + 2) (by omega),
    byteAt_append_left a b (i + 3) (by omega)]

theorem length_putU32LE (x : Nat) : (putU32LE x).length = 4 := rfl

theorem length_writeTuple (a b : Nat) : (writeTuple a b).length = 8 := rfl

theorem getU32LE_putU32LE (x : Nat) (r : List Nat) :
    getU32LE (putU32LE x ++ r) 0 = x % u32 := by
  simp only [putU32LE, getU32LE, byteAt, List.cons_append, List.drop_succ_cons,
    List.drop_zero, List.headD_cons, u32]
  omega

theorem readTuple_writeTuple (a b : Nat) (r : List Nat) :
    readTuple (writeTuple a b ++ r) 0 = (a % u32, b % u32) := by
  unfold readTuple writeTuple
  rw [List.append_assoc]
  have h4 : (0 + 4 : Nat) = (putU32LE a).length + 0 := rfl
  rw [getU32LE_putU32LE, h4, getU32LE_append_right, getU32LE_putU32LE]

theorem readTuple_append_right (pre rest : List Nat) (off : Nat) :
    readTuple (pre ++ rest) (pre.length + off) = readTuple rest off := by
  unfold readTuple
  rw [getU32LE_append_right, Nat.add_assoc, getU32LE_append_right]

theorem readTuple_append_left (a b : List Nat) (off : Nat)
    (h : off + 8 ≤ a.length) :
    readTuple (a ++ b) off = readTuple a off := by
  unfold readTuple
  rw [getU32LE_append_left a b off (by omega),
    getU32LE_append_left a b (off + 4) (by omega)]

theorem catMap_length_const {α : Type} (g : α → List Nat) (c : Nat)
    (hg : ∀ a, (g a).length = c) (l : List α) :
    (catMap g l).length = c * l.length := by
  induction l with
  | nil => simp [catMap]
  | cons a l ih => simp [catMap, hg, ih, Nat.mul_succ]; omega

theorem readTuple_blocks {α : Type} (g1 g2 : α → Nat) (l : List α) (i : Nat)
    (hi : i < l.length) (d : α) :
    readTuple (catMap (fun a => writeTuple (g1 a) (g2 a)) l) (8 * i) =
      (g1 (l.getD i d) % u32, g2 (l.getD i d) % u32) := by
  induction l generalizing i with
  | nil => simp at hi
  | cons a l ih =>
      cases i with
      | zero => simpa [catMap] using readTuple_writeTuple (g1 a) (g2 a) _
      | succ i =>
          have h8 : 8 * (i + 1) = (writeTuple (g1 a) (g2 a)).length + 8 * i := by
            rw [length_writeTuple]; omega
          rw [catMap, h8, readTuple_append_right]
          exact ih i (by simpa using hi)

/-! ### Small list helpers -/

theorem getD_set_self {α : Type} [Inhabited α] (l : List α) (i : Nat) (x : α)
    (h : i < l.length) : (l.set i x).getD i default = x := by
  induction l generalizing i with
  | nil => simp at h
  | cons a l ih =>
      cases i with
      | zero => rfl
      | succ i => simpa using ih i (by simpa using h)

theorem getD_set_ne {α : Type} [Inhabited α] (l : List α) (i j : Nat) (x : α)
    (h : i ≠ j) : (l.set i x).getD j default = l.getD j default := by
  induction l generalizing i j with
  | nil => simp
  | cons a l ih =>
      cases i with
      | zero => cases j with
        | zero => exact absurd rfl h
        | succ j => rfl
      | succ i =>
          cases j with
          | zero => rfl
          | succ j => simpa using ih i j (by omega)

theorem length_set_eq {α : Type} (l : List α) (i : Nat) (x : α) :
    (l.set i x).length = l.length := List.length_set l i x

theorem getD_replicate {α : Type} [Inhabited α] (n i : Nat) :
    (List.replicate n (default : α)).getD i default = default := by
  induction n generalizing i with
  | zero => simp
  | succ n ih =>
      cases i with
      | zero => rfl
      | succ i => simpa [List.replicate] using ih i

theorem totalLen_set_append (l : List (List entry)) (i : Nat) (e : entry)
    (h : i < l.length) :
    totalLen (l.set i (l.getD i [] ++ [e])) = totalLen l + 1 := by
  induction l generalizing i with
  | nil => simp at h
  | cons b l ih =>
      cases i with
      | zero => simp [totalLen]; omega
      | succ i =>
          have := ih i (by simpa using h)
          simp only [List.set, totalLen, List.getD_cons_succ] at *
          omega

theorem bucket_le_totalLen (l : List (List entry)) (i : Nat) :
    (l.getD i []).length ≤ totalLen l := by
  induction l generalizing i with
  | nil => simp
  | cons b l ih =>
      cases i with
      | zero => simp [totalLen]
      | succ i =>
          have := ih i
          simp only [totalLen, List.getD_cons_succ]
          omega

theorem totalLen_take_succ (l : List (List entry)) (i : Nat) (h : i < l.length) :
    totalLen (l.take (i + 1)) = totalLen (l.take i) + (l.getD i []).length := by
  induction l generalizing i with
  | nil => simp at h
  | cons b l ih =>
      cases i with
      | zero => simp [totalLen]
      | succ i =>
          have := ih i (by simpa using h)
          simp only [List.take, totalLen, List.getD_cons_succ] at *
          omega

theorem totalLen_take_le (l : List (List entry)) (i : Nat) :
    totalLen (l.take i) ≤ totalLen l := by
  induction l generalizing i with
  | nil => simp [List.take]
  | cons b l ih =>
      cases i with
      | zero => simp [totalLen]
      | succ i =>
          have := ih i
          simp only [List.take, totalLen]
          omega


/-! ### Properties of the placement probe `findSlot` -/

theorem findSlot_here (sorted : List entry) (m slot fuel : Nat)
    (h : (sorted.getD slot default).hash = 0) :
    findSlot sorted m slot (fuel + 1) = some slot := by
  rw [findSlot, if_pos h]

theorem findSlot_past (sorted : List entry) (m slot fuel : Nat)
    (h : (sorted.getD slot default).hash ≠ 0) :
    findSlot sorted m slot (fuel + 1) = findSlot sorted m ((slot + 1) % m) fuel := by
  rw [findSlot, if_neg h]

theorem findSlot_empty_at (sorted : List entry) (m : Nat) :
    ∀ fuel slot s, findSlot sorted m slot fuel = some s →
      (sorted.getD s default).hash = 0 := by
  intro fuel
  induction fuel with
  | zero => intro slot s h; simp [findSlot] at h
  | succ fuel ih =>
      intro slot s h
      by_cases h0 : (sorted.getD slot default).hash = 0
      · rw [findSlot_here sorted m slot fuel h0] at h
        cases h; exact h0
      · rw [findSlot_past sorted m slot fuel h0] at h
        exact ih _ _ h

theorem findSlot_path (sorted : List entry) (m : Nat) :
    ∀ fuel slot s, slot < m → findSlot sorted m slot fuel = some s →
      ∃ j, j < fuel ∧ s = (slot + j) % m ∧
        ∀ i, i < j → (sorted.getD ((slot + i) % m) default).hash ≠ 0 := by
  intro fuel
  induction fuel with
  | zero => intro slot s _ h; simp [findSlot] at h
  | succ fuel ih =>
      intro slot s hslot h
      by_cases h0 : (sorted.getD slot default).hash = 0
      · rw [findSlot_here sorted m slot fuel h0] at h
        cases h
        exact ⟨0, Nat.succ_pos _, by rw [Nat.add_zero, Nat.mod_eq_of_lt hslot],
          fun i hi => absurd hi (Nat.not_lt_zero i)⟩
      · rw [findSlot_past sorted m slot fuel h0] at h
        have hm : 0 < m := by omega
        obtain ⟨j, hj, hs, hpath⟩ := ih ((slot + 1) % m) s (Nat.mod_lt _ hm) h
        refine ⟨j + 1, by omega, ?_, ?_⟩
        · rw [hs, Nat.mod_add_mod]
          congr 1
          omega
        · intro i hi
          cases i with
          | zero => simpa [Nat.mod_eq_of_lt hslot] using h0
          | succ i =>
              have := hpath i (by omega)
              rwa [Nat.mod_add_mod, Nat.add_assoc, Nat.add_comm 1 i] at this

theorem findSlot_found (sorted : List entry) (m : Nat) :
    ∀ fuel slot, slot < m →
      (∃ j, j < fuel ∧ (sorted.getD ((slot + j) % m) default).hash = 0) →
      ∃ s, findSlot sorted m slot fuel = some s := by
  intro fuel
  induction fuel with
  | zero => intro slot _ h; obtain ⟨j, hj, _⟩ := h; omega
  | succ fuel ih =>
      intro slot hslot h
      by_cases h0 : (sorted.getD slot default).hash = 0
      · exact ⟨slot, findSlot_here sorted m slot fuel h0⟩
      · rw [findSlot_past sorted m slot fuel h0]
        have hm : 0 < m := by omega
        apply ih ((slot + 1) % m) (Nat.mod_lt _ hm)
        obtain ⟨j, hj, hz⟩ := h
        cases j with
        | zero =>
            rw [Nat.add_zero, Nat.mod_eq_of_lt hslot] at hz
            exact absurd hz h0
        | succ j =>
            refine ⟨j, by omega, ?_⟩
            rw [Nat.mod_add_mod]
            have harg : slot + 1 + j = slot + (j + 1) := by omega
            rw [harg]
            exact hz

/-- Either `placeStep` does nothing (no empty slot within one revolution,
where the Go loop would diverge), or it overwrites a slot whose stored
hash is 0. -/
theorem placeStep_cases (m : Nat) (sorted : List entry) (e : entry) :
    placeStep m sorted e = sorted ∨
    ∃ s, s < m ∧ (sorted.getD s default).hash = 0 ∧
      placeStep m sorted e = sorted.set s e := by
  unfold placeStep
  cases hfind : findSlot sorted m ((e.hash >>> 8) % m) m with
  | none => exact Or.inl rfl
  | some s =>
      right
      have hm : 0 < m := by
        cases m with
        | zero => simp [findSlot] at hfind
        | succ m => omega
      obtain ⟨j, _, hs, _⟩ :=
        findSlot_path sorted m m _ s (Nat.mod_lt _ hm) hfind
      exact ⟨s, hs ▸ Nat.mod_lt _ hm,
        findSlot_empty_at sorted m m _ s hfind, rfl⟩

theorem length_placeStep (m : Nat) (sorted : List entry) (e : entry) :
    (placeStep m sorted e).length = sorted.length := by
  rcases placeStep_cases m sorted e with h | ⟨s, _, _, h⟩ <;>
    simp [h]

theorem length_foldl_placeStep (m : Nat) (es : List entry) :
    ∀ init : List entry, (es.foldl (placeStep m) init).length = init.length := by
  induction es with
  | nil => intro init; rfl
  | cons e es ih =>
      intro init
      rw [List.foldl_cons, ih, length_placeStep]

theorem length_placeEntries (m : Nat) (es : List entry) :
    (placeEntries m es).length = m := by
  unfold placeEntries
  rw [length_foldl_placeStep, List.length_replicate]

theorem countNZ_nil : countNZ [] = 0 := rfl

theorem countNZ_set_le (l : List entry) (i : Nat) (x : entry) :
    countNZ (l.set i x) ≤ countNZ l + 1 := by
  induction l generalizing i with
  | nil => simp [countNZ]
  | cons a l ih =>
      cases i with
      | zero =>
          by_cases ha : a.hash = 0 <;> by_cases hx : x.hash = 0 <;>
            simp [countNZ, List.filter, ha, hx] at * <;> omega
      | succ i =>
          by_cases ha : a.hash = 0 <;>
            · have := ih i
              simp [countNZ, List.filter, ha] at * <;> omega

theorem default_entry : (default : entry) = ⟨0, 0⟩ := rfl

theorem countNZ_cons (a : entry) (l : List entry) :
    countNZ (a :: l) = (if a.hash = 0 then 0 else 1) + countNZ l := by
  by_cases h : a.hash = 0 <;> simp [countNZ, List.filter_cons, h] <;> omega

theorem countNZ_replicate (m : Nat) :
    countNZ (List.replicate m (default : entry)) = 0 := by
  induction m with
  | zero => rfl
  | succ m ih =>
      rw [List.replicate_succ, countNZ_cons, default_entry]
      simpa using ih

theorem countNZ_placeStep (m : Nat) (sorted : List entry) (e : entry) :
    countNZ (placeStep m sorted e) ≤ countNZ sorted + 1 := by
  rcases placeStep_cases m sorted e with h | ⟨s, _, _, h⟩
  · rw [h]; omega
  · rw [h]; exact countNZ_set_le sorted s e

theorem exists_zero_slot (sorted : List entry)
    (h : countNZ sorted < sorted.length) :
    ∃ s, s < sorted.length ∧ (sorted.getD s default).hash = 0 := by
  induction sorted with
  | nil => simp at h
  | cons a l ih =>
      by_cases ha : a.hash = 0
      · exact ⟨0, Nat.succ_pos _, ha⟩
      · have hc : countNZ l < l.length := by
          simp [countNZ, List.filter, ha] at h ⊢
          omega
        obtain ⟨s, hs, hz⟩ := ih hc
        exact ⟨s + 1, by simpa using hs, hz⟩

/-! ### Placement invariants for `placeEntries` -/

theorem placeStep_preserve (m : Nat) (sorted : List entry) (e : entry) (s : Nat)
    (h : (sorted.getD s default).hash ≠ 0) :
    (placeStep m sorted e).getD s default = sorted.getD s default := by
  rcases placeStep_cases m sorted e with hc | ⟨s', _, hz, hc⟩
  · rw [hc]
  · rw [hc]
    apply getD_set_ne
    intro he
    rw [he] at hz
    exact h hz

theorem foldl_preserve (m : Nat) (es : List entry) :
    ∀ (sorted : List entry) (s : Nat),
      (sorted.getD s default).hash ≠ 0 →
      (es.foldl (placeStep m) sorted).getD s default = sorted.getD s default := by
  induction es with
  | nil => intro sorted s _; rfl
  | cons e es ih =>
      intro sorted s h
      rw [List.foldl_cons]
      have hp := placeStep_preserve m sorted e s h
      rw [ih (placeStep m sorted e) s (by rw [hp]; exact h), hp]

theorem countNZ_foldl_le (m : Nat) (es : List entry) :
    ∀ sorted, countNZ (es.foldl (placeStep m) sorted) ≤ countNZ sorted + es.length := by
  induction es with
  | nil => intro sorted; simp
  | cons e es ih =>
      intro sorted
      have h1 := ih (placeStep m sorted e)
      have h2 := countNZ_placeStep m sorted e
      rw [List.foldl_cons]
      simp only [List.length_cons]
      omega

theorem mod_window_inj (m x i j : Nat) (hij : i < j) (hj : j < m)
    (h : (x + i) % m = (x + j) % m) : False := by
  have hmod : Nat.ModEq m (x + i) (x + j) := h
  have hdvd : m ∣ (x + j) - (x + i) :=
    (Nat.modEq_iff_dvd' (by omega)).mp hmod
  have hle : m ≤ (x + j) - (x + i) := Nat.le_of_dvd (by omega) hdvd
  omega

theorem foldl_placed (m : Nat) (es : List entry) :
    ∀ (init : List entry) (c : Nat) (e : entry),
      init.length = m → countNZ init ≤ c → c + es.length ≤ m →
      e ∈ es → e.hash ≠ 0 →
      ∃ j, j < m ∧
        (es.foldl (placeStep m) init).getD (((e.hash >>> 8) % m + j) % m) default = e ∧
        ∀ i, i < j →
          ((es.foldl (placeStep m) init).getD (((e.hash >>> 8) % m + i) % m) default).hash ≠ 0 := by
  induction es with
  | nil => intro init c e _ _ _ hmem; simp at hmem
  | cons a es ih =>
      intro init c e hlen hcnt hbound hmem hnz
      have hm : 0 < m := by
        simp only [List.length_cons] at hbound
        omega
      rcases List.mem_cons.mp hmem with he | he
      · subst he
        have hhlt : (e.hash >>> 8) % m < m := Nat.mod_lt _ hm
        have hcnt' : countNZ init < init.length := by
          simp only [List.length_cons] at hbound
          omega
        obtain ⟨s0, hs0, hz0⟩ := exists_zero_slot init hcnt'
        rw [hlen] at hs0
        have hwin : ∃ j0, j0 < m ∧ ((e.hash >>> 8) % m + j0) % m = s0 := by
          by_cases hle : (e.hash >>> 8) % m ≤ s0
          · exact ⟨s0 - (e.hash >>> 8) % m, by omega, by
              rw [show (e.hash >>> 8) % m + (s0 - (e.hash >>> 8) % m) = s0 by omega]
              exact Nat.mod_eq_of_lt hs0⟩
          · refine ⟨s0 + m - (e.hash >>> 8) % m, by omega, ?_⟩
            rw [show (e.hash >>> 8) % m + (s0 + m - (e.hash >>> 8) % m) = s0 + m by omega]
            rw [Nat.add_mod_right]
            exact Nat.mod_eq_of_lt hs0
        obtain ⟨j0, hj0, hj0eq⟩ := hwin
        obtain ⟨s, hs⟩ :=
          findSlot_found init m m _ hhlt ⟨j0, hj0, by rw [hj0eq]; exact hz0⟩
        obtain ⟨j, hj, hseq, hpath⟩ := findSlot_path init m m _ s hhlt hs
        have hstep : placeStep m init e = init.set s e := by
          unfold placeStep
          rw [hs]
        have hslt : s < m := hseq ▸ Nat.mod_lt _ hm
        have hset : (init.set s e).getD s default = e :=
          getD_set_self init s e (by rw [hlen]; exact hslt)
        refine ⟨j, by omega, ?_, ?_⟩
        · rw [List.foldl_cons, hstep, ← hseq]
          rw [foldl_preserve m es (init.set s e) s (by rw [hset]; exact hnz), hset]
        · intro i hi
          have hpi := hpath i hi
          have hne : s ≠ ((e.hash >>> 8) % m + i) % m := by
            rw [hseq]
            intro hcon
            exact mod_window_inj m ((e.hash >>> 8) % m) i j hi hj hcon.symm
          have hkeep : (init.set s e).getD (((e.hash >>> 8) % m + i) % m) default =
              init.getD (((e.hash >>> 8) % m + i) % m) default :=
            getD_set_ne init s _ e hne
          rw [List.foldl_cons, hstep,
            foldl_preserve m es (init.set s e) _ (by rw [hkeep]; exact hpi), hkeep]
          exact hpi
      · rw [List.foldl_cons]
        apply ih (placeStep m init a) (c + 1) e
        · rw [length_placeStep, hlen]
        · have := countNZ_placeStep m init a
          omega
        · simp only [List.length_cons] at hbound
          omega
        · exact he
        · exact hnz

theorem placeEntries_placed (m : Nat) (es : List entry) (e : entry)
    (hmem : e ∈ es) (hnz : e.hash ≠ 0) (hbound : es.length ≤ m) :
    ∃ j, j < m ∧
      (placeEntries m es).getD (((e.hash >>> 8) % m + j) % m) default = e ∧
      ∀ i, i < j →
        ((placeEntries m es).getD (((e.hash >>> 8) % m + i) % m) default).hash ≠ 0 := by
  apply foldl_placed m es (List.replicate m default) 0 e
  · exact List.length_replicate m default
  · rw [countNZ_replicate]
  · omega
  · exact hmem
  · exact hnz

theorem foldl_sound (m : Nat) (es0 : List entry) (es : List entry) :
    ∀ (init : List entry),
      init.length = m →
      (∀ x ∈ es, x ∈ es0) →
      (∀ s, init.getD s default = default ∨ init.getD s default ∈ es0) →
      ∀ s, (es.foldl (placeStep m) init).getD s default = default ∨
        (es.foldl (placeStep m) init).getD s default ∈ es0 := by
  induction es with
  | nil => intro init _ _ hinit s; exact hinit s
  | cons a es ih =>
      intro init hlen hsub hinit s
      rw [List.foldl_cons]
      apply ih (placeStep m init a)
      · rw [length_placeStep, hlen]
      · intro x hx; exact hsub x (List.mem_cons_of_mem a hx)
      · intro s'
        rcases placeStep_cases m init a with hc | ⟨s'', hs'', _, hc⟩
        · rw [hc]; exact hinit s'
        · rw [hc]
          by_cases he : s'' = s'
          · subst he
            rw [getD_set_self init s'' a (by rw [hlen]; exact hs'')]
            exact Or.inr (hsub a (List.mem_cons_self a es))
          · rw [getD_set_ne init s'' s' a he]
            exact hinit s'

theorem placeEntries_sound (m : Nat) (es : List entry) (s : Nat) :
    (placeEntries m es).getD s default = default ∨
    (placeEntries m es).getD s default ∈ es := by
  apply foldl_sound m es es (List.replicate m default)
    (List.length_replicate m default) (fun x hx => hx)
  intro s'
  exact Or.inl (getD_replicate m s')

/-! ### Invariants of writers reachable by `Put` -/

theorem getD_set_self_d {α : Type} (l : List α) (i : Nat) (x d : α)
    (h : i < l.length) : (l.set i x).getD i d = x := by
  induction l generalizing i with
  | nil => simp at h
  | cons a l ih =>
      cases i with
      | zero => rfl
      | succ i => simpa using ih i (by simpa using h)

theorem getD_set_ne_d {α : Type} (l : List α) (i j : Nat) (x d : α)
    (h : i ≠ j) : (l.set i x).getD j d = l.getD j d := by
  induction l generalizing i j with
  | nil => simp
  | cons a l ih =>
      cases i with
      | zero => cases j with
        | zero => exact absurd rfl h
        | succ j => rfl
      | succ i =>
          cases j with
          | zero => rfl
          | succ j => simpa using ih i j (by omega)

theorem getD_replicate_self {α : Type} (n i : Nat) (x : α) :
    (List.replicate n x).getD i x = x := by
  induction n generalizing i with
  | zero => simp
  | succ n ih =>
      cases i with
      | zero => rfl
      | succ i => simpa [List.replicate] using ih i

theorem totalLen_replicate_nil (n : Nat) :
    totalLen (List.replicate n []) = 0 := by
  induction n with
  | zero => rfl
  | succ n ih => simpa [List.replicate, totalLen] using ih

theorem length_recordBytes (k v : List Nat) :
    (recordBytes k v).length = 8 + k.length + v.length := by
  simp [recordBytes, writeTuple, putU32LE]
  omega

theorem RecordAt_bounds (data : List Nat) (off : Nat) (k v : List Nat)
    (h : RecordAt data off k v) :
    off + 8 + k.length + v.length ≤ indexSize + data.length := by
  obtain ⟨hle, r, hr⟩ := h
  have hlen := congrArg List.length hr
  rw [List.length_drop, List.length_append, length_recordBytes] at hlen
  omega

theorem RecordAt_append (data ext : List Nat) (off : Nat) (k v : List Nat)
    (h : RecordAt data off k v) : RecordAt (data ++ ext) off k v := by
  obtain ⟨hle, r, hr⟩ := h
  have hp : off - indexSize ≤ data.length := by
    have := RecordAt_bounds data off k v ⟨hle, r, hr⟩
    simp only [indexSize] at *
    omega
  refine ⟨hle, r ++ ext, ?_⟩
  rw [List.drop_append_of_le_length hp, hr, List.append_assoc]

theorem drop_exact (data ext : List Nat) :
    (data ++ ext).drop data.length = ext := by
  rw [List.drop_append_of_le_length (Nat.le_refl _), List.drop_length,
    List.nil_append]

theorem inv_init (h : Hasher) : Inv h [] newWriter := by
  have hent : newWriter.entries = List.replicate 256 [] := rfl
  refine ⟨?_, rfl, ?_, ?_, ?_, ?_⟩
  · rw [hent, List.length_replicate]
  · show 0 = 16 * totalLen newWriter.entries
    rw [hent, totalLen_replicate_nil]
  · show indexSize + 0 ≤ maxUint32
    simp [indexSize, maxUint32]
  · intro b e he
    rw [hent, getD_replicate_self] at he
    simp at he
  · intro kv hkv
    simp at hkv

theorem inv_step (h : Hasher) (ps : List (List Nat × List Nat)) (w w' : Writer)
    (k v : List Nat) (hinv : Inv h ps w)
    (hput : Writer.Put h w k v = .ok w') :
    Inv h (ps ++ [(k, v)]) w' := by
  unfold Writer.Put at hput
  simp only at hput
  by_cases hg : w.bufferedOffset + (8 + k.length + v.length) +
      w.estimatedFooterSize + 16 > maxUint32
  · rw [if_pos hg] at hput
    cases hput
  · rw [if_neg hg] at hput
    have hmod : w.bufferedOffset % u32 = w.bufferedOffset := by
      apply Nat.mod_eq_of_lt
      have := hinv.bound
      simp only [maxUint32, u32] at *
      omega
    cases hput
    have htlt : h k % 256 < w.entries.length := by
      rw [hinv.elen]
      exact Nat.mod_lt _ (by omega)
    refine ⟨?_, ?_, ?_, ?_, ?_, ?_⟩
    · simpa using hinv.elen
    · simp only [hinv.off, List.length_append, length_recordBytes]
      simp only [indexSize]
      omega
    · simp only [hinv.foot, totalLen_set_append w.entries _ _ htlt]
      omega
    · simp only at hg ⊢
      omega
    · intro b e he
      simp only at he
      by_cases hb : h k % 256 = b
      · rw [← hb, getD_set_self_d w.entries _ _ _ htlt] at he
        rcases List.mem_append.mp he with hold | hnew
        · obtain ⟨kv, hkv, h1, h2, h3⟩ := hinv.sound (h k % 256) e hold
          exact ⟨kv, List.mem_append_left _ hkv, h1, hb ▸ h2,
            RecordAt_append _ _ _ _ _ h3⟩
        · simp at hnew
          subst hnew
          refine ⟨(k, v), List.mem_append_right _ (by simp), rfl, hb, ?_⟩
          refine ⟨?_, [], ?_⟩
          · show indexSize ≤ w.bufferedOffset % u32
            rw [hmod, hinv.off]
            exact Nat.le_add_right _ _
          · show (w.data ++ recordBytes k v).drop
                (w.bufferedOffset % u32 - indexSize) = recordBytes k v ++ []
            rw [hmod, hinv.off, List.append_nil,
              show indexSize + w.data.length - indexSize = w.data.length by omega]
            exact drop_exact w.data _
      · rw [getD_set_ne_d w.entries _ _ _ _ hb] at he
        obtain ⟨kv, hkv, h1, h2, h3⟩ := hinv.sound b e he
        exact ⟨kv, List.mem_append_left _ hkv, h1, h2,
          RecordAt_append _ _ _ _ _ h3⟩
    · intro kv hkv
      rcases List.mem_append.mp hkv with hold | hnew
      · obtain ⟨e, he, h1, h2⟩ := hinv.complete kv hold
        refine ⟨e, ?_, h1, RecordAt_append _ _ _ _ _ h2⟩
        simp only
        by_cases hb : h k % 256 = h kv.1 % 256
        · rw [← hb, getD_set_self_d w.entries _ _ _ htlt]
          exact List.mem_append_left _ (hb ▸ he)
        · rw [getD_set_ne_d w.entries _ _ _ _ hb]
          exact he
      · simp at hnew
        subst hnew
        refine ⟨⟨h k, w.bufferedOffset % u32⟩, ?_, rfl, ?_⟩
        · simp only
          rw [getD_set_self_d w.entries _ _ _ htlt]
          exact List.mem_append_right _ (by simp)
        · refine ⟨?_, [], ?_⟩
          · show indexSize ≤ w.bufferedOffset % u32
            rw [hmod, hinv.off]
            exact Nat.le_add_right _ _
          · show (w.data ++ recordBytes k v).drop
                (w.bufferedOffset % u32 - indexSize) = recordBytes k v ++ []
            rw [hmod, hinv.off, List.append_nil,
              show indexSize + w.data.length - indexSize = w.data.length by omega]
            exact drop_exact w.data _

theorem foldlM_inv (h : Hasher) (ps : List (List Nat × List Nat)) :
    ∀ (acc : List (List Nat × List Nat)) (w0 w : Writer), Inv h acc w0 →
      ps.foldlM (fun w kv => Writer.Put h w kv.1 kv.2) w0 = .ok w →
      Inv h (acc ++ ps) w := by
  induction ps with
  | nil =>
      intro acc w0 w hinv hfold
      simp only [List.foldlM_nil] at hfold
      cases hfold
      simpa using hinv
  | cons kv ps ih =>
      intro acc w0 w hinv hfold
      rw [List.foldlM_cons] at hfold
      cases hput : Writer.Put h w0 kv.1 kv.2 with
      | error er => rw [hput] at hfold; cases hfold
      | ok w1 =>
          rw [hput] at hfold
          have hinv1 : Inv h (acc ++ [kv]) w1 := inv_step h acc w0 w1 kv.1 kv.2 hinv hput
          have := ih (acc ++ [kv]) w1 w hinv1 hfold
          rwa [List.append_assoc, List.singleton_append] at this

theorem putsAll_inv (h : Hasher) (ps : List (List Nat × List Nat)) (w : Writer)
    (hp : putsAll h ps = .ok w) : Inv h ps w := by
  have := foldlM_inv h ps [] newWriter w (inv_init h) hp
  simpa using this

/-! ### The layout produced by `finalize` -/

theorem writeSlots_ok (slots : List entry) :
    ∀ off, off + 8 * slots.length ≤ maxUint32 →
      writeSlots off slots =
        .ok (off + 8 * slots.length,
          catMap (fun e => writeTuple e.hash e.offset) slots) := by
  induction slots with
  | nil => intro off _; simp [writeSlots, catMap]
  | cons e slots ih =>
      intro off hoff
      rw [writeSlots, if_neg (by simp only [List.length_cons] at hoff; omega)]
      rw [ih (off + 8) (by simp only [List.length_cons] at hoff; omega)]
      simp only [catMap, List.length_cons]
      rw [show off + 8 + 8 * slots.length = off + 8 * (slots.length + 1) by omega]

theorem finalizeBuckets_eq (buckets : List (List entry)) :
    ∀ off, (∀ b ∈ buckets, 2 * b.length < u32) → off < u32 →
      off + 16 * totalLen buckets ≤ maxUint32 →
      finalizeBuckets buckets off =
        .ok (tablesFrom off buckets, off + 16 * totalLen buckets,
          subtablesBytes buckets) := by
  induction buckets with
  | nil =>
      intro off _ _ _
      simp [finalizeBuckets, tablesFrom, subtablesBytes, totalLen]
  | cons b rest ih =>
      intro off hb hofflt hbound
      have hmm : (2 * b.length) % u32 = 2 * b.length :=
        Nat.mod_eq_of_lt (hb b (List.mem_cons_self b rest))
      have htl : totalLen (b :: rest) = b.length + totalLen rest := rfl
      have hws := writeSlots_ok (placeEntries (2 * b.length) b) off
        (by rw [length_placeEntries]; rw [htl] at hbound; omega)
      rw [length_placeEntries] at hws
      have hih := ih (off + 8 * (2 * b.length))
        (fun x hx => hb x (List.mem_cons_of_mem b hx))
        (by simp only [maxUint32, u32] at *; omega)
        (by rw [htl] at hbound; omega)
      rw [finalizeBuckets]
      simp only [hmm, hws, hih]
      simp only [tablesFrom, subtablesBytes, subtableBytes, htl,
        Nat.mod_eq_of_lt hofflt]
      rw [show off + 8 * (2 * b.length) = off + 16 * b.length by omega,
        show off + 16 * b.length + 16 * totalLen rest =
          off + 16 * (b.length + totalLen rest) by omega]

theorem length_tablesFrom (bs : List (List entry)) :
    ∀ off, (tablesFrom off bs).length = bs.length := by
  induction bs with
  | nil => intro off; rfl
  | cons b rest ih => intro off; simp [tablesFrom, ih]

theorem tablesFrom_getD (bs : List (List entry)) :
    ∀ off i, i < bs.length →
      (tablesFrom off bs).getD i default =
        ⟨off + 16 * totalLen (bs.take i), 2 * (bs.getD i []).length⟩ := by
  induction bs with
  | nil => intro off i hi; simp at hi
  | cons b rest ih =>
      intro off i hi
      cases i with
      | zero => simp [tablesFrom, totalLen]
      | succ i =>
          have := ih (off + 16 * b.length) i (by simpa using hi)
          simp only [tablesFrom, List.getD_cons_succ, List.take_succ_cons,
            totalLen] at this ⊢
          rw [this, show off + 16 * b.length + 16 * totalLen (rest.take i) =
            off + 16 * (b.length + totalLen (rest.take i)) by omega]

theorem tablesFrom_bounds (bs : List (List entry)) :
    ∀ off, (∀ b ∈ bs, 2 * b.length < u32) →
      off + 16 * totalLen bs ≤ maxUint32 →
      ∀ t ∈ tablesFrom off bs, t.offset < u32 ∧ t.length < u32 := by
  induction bs with
  | nil => intro off _ _ t ht; simp [tablesFrom] at ht
  | cons b rest ih =>
      intro off hb hbound t ht
      have htl : totalLen (b :: rest) = b.length + totalLen rest := rfl
      rcases List.mem_cons.mp ht with he | he
      · subst he
        constructor
        · simp only [maxUint32, u32] at *
          omega
        · exact hb b (List.mem_cons_self b rest)
      · exact ih (off + 16 * b.length)
          (fun x hx => hb x (List.mem_cons_of_mem b hx))
          (by rw [htl] at hbound; omega) t he

theorem length_serializeIndex (ts : List table) :
    (serializeIndex ts).length = 8 * ts.length := by
  unfold serializeIndex
  exact catMap_length_const (fun t => writeTuple t.offset t.length) 8
    (fun t => length_writeTuple _ _) ts

theorem length_subtableBytes (b : List entry) :
    (subtableBytes b).length = 16 * b.length := by
  unfold subtableBytes
  have hc := catMap_length_const (fun e : entry => writeTuple e.hash e.offset) 8
    (fun e => length_writeTuple _ _) (placeEntries (2 * b.length) b)
  rw [hc, length_placeEntries]
  omega

theorem length_subtablesBytes (bs : List (List entry)) :
    (subtablesBytes bs).length = 16 * totalLen bs := by
  induction bs with
  | nil => rfl
  | cons b rest ih =>
      simp only [subtablesBytes, List.length_append, ih, length_subtableBytes,
        totalLen]
      omega

theorem subtablesBytes_decomp (bs : List (List entry)) :
    ∀ i, i < bs.length →
      ∃ pre post, subtablesBytes bs = pre ++ subtableBytes (bs.getD i []) ++ post ∧
        pre.length = 16 * totalLen (bs.take i) := by
  induction bs with
  | nil => intro i hi; simp at hi
  | cons b rest ih =>
      intro i hi
      cases i with
      | zero =>
          exact ⟨[], subtablesBytes rest, by simp [subtablesBytes], by simp [totalLen]⟩
      | succ i =>
          obtain ⟨pre, post, hdec, hlen⟩ := ih i (by simpa using hi)
          refine ⟨subtableBytes b ++ pre, post, ?_, ?_⟩
          · simp only [subtablesBytes, List.getD_cons_succ, hdec,
              List.append_assoc]
          · simp only [List.length_append, length_subtableBytes, hlen,
              List.take_succ_cons, totalLen]
            omega

/-! ### Reading the finalized file back -/

theorem mem_le_totalLen (l : List (List entry)) (b : List entry) (hb : b ∈ l) :
    b.length ≤ totalLen l := by
  induction l with
  | nil => simp at hb
  | cons x l ih =>
      rcases List.mem_cons.mp hb with he | he
      · subst he; simp [totalLen]
      · have := ih he
        simp only [totalLen]
        omega

theorem inv_buckets_small (h : Hasher) (ps : List (List Nat × List Nat))
    (w : Writer) (hinv : Inv h ps w) : ∀ b ∈ w.entries, 2 * b.length < u32 := by
  intro b hb
  have h1 := mem_le_totalLen w.entries b hb
  have h2 := hinv.bound
  have h3 := hinv.foot
  simp only [u32, maxUint32] at *
  omega

theorem inv_off_bound (h : Hasher) (ps : List (List Nat × List Nat))
    (w : Writer) (hinv : Inv h ps w) :
    w.bufferedOffset + 16 * totalLen w.entries ≤ maxUint32 := by
  have h2 := hinv.bound
  rw [hinv.foot] at h2
  exact h2

theorem finalize_inv (sha : List Nat → List Nat) (h : Hasher)
    (ps : List (List Nat × List Nat)) (w : Writer) (hinv : Inv h ps w) :
    w.finalize sha = .ok (tablesFrom w.bufferedOffset w.entries,
      contentBytes w ++ sha (contentBytes w)) := by
  unfold Writer.finalize
  rw [finalizeBuckets_eq w.entries w.bufferedOffset
    (inv_buckets_small h ps w hinv)
    (by have := inv_off_bound h ps w hinv; simp only [u32, maxUint32] at *; omega)
    (inv_off_bound h ps w hinv)]
  rfl

theorem length_contentBytes (h : Hasher) (ps : List (List Nat × List Nat))
    (w : Writer) (hinv : Inv h ps w) :
    (contentBytes w).length = w.bufferedOffset + 16 * totalLen w.entries := by
  unfold contentBytes
  rw [List.length_append, List.length_append, length_serializeIndex,
    length_tablesFrom, hinv.elen, length_subtablesBytes, hinv.off]
  simp only [indexSize]

theorem byteAt_drop (f : List Nat) (off i : Nat) :
    byteAt (f.drop off) i = byteAt f (off + i) := by
  unfold byteAt
  rw [List.drop_drop]

theorem getU32LE_drop (f : List Nat) (off i : Nat) :
    getU32LE (f.drop off) i = getU32LE f (off + i) := by
  unfold getU32LE
  rw [byteAt_drop f off i, byteAt_drop f off (i + 1), byteAt_drop f off (i + 2),
    byteAt_drop f off (i + 3)]
  simp only [Nat.add_assoc]

theorem readTuple_drop (f : List Nat) (off : Nat) :
    readTuple f off = readTuple (f.drop off) 0 := by
  unfold readTuple
  rw [getU32LE_drop f off 0, getU32LE_drop f off (0 + 4)]
  simp

theorem drop_append_exact (a b : List Nat) (n : Nat) :
    (a ++ b).drop (a.length + n) = b.drop n := by
  rw [← List.drop_drop, drop_exact]

theorem getD_mem_of_lt {α : Type} (l : List α) (i : Nat) (d : α)
    (h : i < l.length) : l.getD i d ∈ l := by
  induction l generalizing i with
  | nil => simp at h
  | cons a l ih =>
      cases i with
      | zero => exact List.mem_cons_self a l
      | succ i => exact List.mem_cons_of_mem a (ih i (by simpa using h))

theorem getElem?_eq_getD {α : Type} (l : List α) (i : Nat) (d : α)
    (h : i < l.length) : l[i]? = some (l.getD i d) := by
  induction l generalizing i with
  | nil => simp at h
  | cons a l ih =>
      cases i with
      | zero => simp
      | succ i => simpa using ih i (by simpa using h)

theorem table_eta (t : table) : (⟨t.offset, t.length⟩ : table) = t := rfl

theorem readIndex_eq (ts : List table) (rest : List Nat)
    (hlen : ts.length = 256)
    (hts : ∀ t ∈ ts, t.offset < u32 ∧ t.length < u32) :
    readIndex (serializeIndex ts ++ rest) = ts := by
  apply List.ext_getElem?
  intro i
  unfold readIndex
  by_cases hi : i < 256
  · rw [List.getElem?_map, List.getElem?_range hi]
    simp only [Option.map_some']
    have hread : readTuple (serializeIndex ts ++ rest) (8 * i) =
        readTuple (serializeIndex ts) (8 * i) :=
      readTuple_append_left _ _ _
        (by rw [length_serializeIndex, hlen]; omega)
    have hblocks := readTuple_blocks table.offset table.length ts i
      (by omega) default
    have ht := hts (ts.getD i default) (getD_mem_of_lt ts i default (by omega))
    rw [hread, show serializeIndex ts =
        catMap (fun t => writeTuple (table.offset t) (table.length t)) ts from rfl,
      hblocks, Nat.mod_eq_of_lt ht.1, Nat.mod_eq_of_lt ht.2,
      getElem?_eq_getD ts i default (by omega)]
  · rw [List.getElem?_map]
    rw [List.getElem?_eq_none (by simpa using Nat.le_of_not_lt hi),
      List.getElem?_eq_none (by omega), Option.map_none']

theorem contentBytes_drop_record (h : Hasher) (ps : List (List Nat × List Nat))
    (w : Writer) (hinv : Inv h ps w) (tail : List Nat) (off : Nat)
    (k v : List Nat) (hr : RecordAt w.data off k v) :
    ∃ r, (contentBytes w ++ tail).drop off = recordBytes k v ++ r := by
  obtain ⟨hle, r, hdrop⟩ := hr
  have hp : off - indexSize ≤ w.data.length := by
    have := RecordAt_bounds w.data off k v ⟨hle, r, hdrop⟩
    simp only [indexSize] at *
    omega
  have hsl : (serializeIndex (tablesFrom w.bufferedOffset w.entries)).length =
      indexSize := by
    rw [length_serializeIndex, length_tablesFrom, hinv.elen]
    rfl
  refine ⟨r ++ (subtablesBytes w.entries ++ tail), ?_⟩
  unfold contentBytes
  rw [List.append_assoc, List.append_assoc,
    show off = (serializeIndex (tablesFrom w.bufferedOffset w.entries)).length +
      (off - indexSize) by rw [hsl]; simp only [indexSize] at *; omega,
    drop_append_exact, List.drop_append_of_le_length hp, hdrop,
    List.append_assoc]

theorem getValueAt_of_record (c : CDB) (off : Nat) (k v q r : List Nat)
    (hdrop : c.reader.drop off = recordBytes k v ++ r)
    (hk : k.length < u32) (hv : v.length < u32) (hoff8 : off + 8 < u32) :
    CDB.getValueAt c off q = if q = k then some v else none := by
  have hread : readTuple c.reader off = (k.length, v.length) := by
    rw [readTuple_drop, hdrop]
    unfold recordBytes
    rw [List.append_assoc, List.append_assoc, readTuple_writeTuple,
      Nat.mod_eq_of_lt hk, Nat.mod_eq_of_lt hv]
  unfold CDB.getValueAt
  rw [hread]
  simp only
  by_cases hq : k.length = q.length
  · rw [if_neg (by simpa using hq)]
    have hmod : (off + 8) % u32 = off + 8 := Nat.mod_eq_of_lt hoff8
    have hdrop8 : c.reader.drop (off + 8) = (k ++ v) ++ r := by
      rw [← List.drop_drop, hdrop,
        show recordBytes k v ++ r =
          writeTuple k.length v.length ++ ((k ++ v) ++ r) by
            unfold recordBytes; simp [List.append_assoc],
        show (8 : Nat) = (writeTuple k.length v.length).length from rfl,
        drop_exact]
    rw [hmod, hdrop8,
      show k.length + v.length = (k ++ v).length from (List.length_append k v).symm,
      List.take_left, List.take_left]
    by_cases hqk : q = k
    · rw [if_neg (show ¬k ≠ q from fun hne => hne hqk.symm), if_pos hqk,
        show (k ++ v).drop k.length = v from drop_exact k v]
    · rw [if_pos (fun he => hqk he.symm), if_neg hqk]
  · rw [if_pos (by simpa using hq), if_neg (fun he => hq (by rw [he]))]

/-! ### The probe loop of `Get` -/

theorem totalLen_take_bucket_le (l : List (List entry)) (b : Nat)
    (hb : b < l.length) :
    totalLen (l.take b) + (l.getD b []).length ≤ totalLen l := by
  have h1 := totalLen_take_succ l b hb
  have h2 := totalLen_take_le l (b + 1)
  omega

theorem slot_read (h : Hasher) (ps : List (List Nat × List Nat)) (w : Writer)
    (hinv : Inv h ps w) (tail : List Nat) (b s : Nat) (hb : b < 256)
    (hs : s < 2 * (w.entries.getD b []).length) :
    readTuple (contentBytes w ++ tail)
        (w.bufferedOffset + 16 * totalLen (w.entries.take b) + 8 * s) =
      (((placeEntries (2 * (w.entries.getD b []).length)
          (w.entries.getD b [])).getD s default).hash % u32,
       ((placeEntries (2 * (w.entries.getD b []).length)
          (w.entries.getD b [])).getD s default).offset % u32) := by
  have hblen : b < w.entries.length := by rw [hinv.elen]; exact hb
  obtain ⟨pre, post, hdec, hplen⟩ := subtablesBytes_decomp w.entries b hblen
  have hsl : (serializeIndex (tablesFrom w.bufferedOffset w.entries)).length =
      indexSize := by
    rw [length_serializeIndex, length_tablesFrom, hinv.elen]
    rfl
  have hfile : contentBytes w ++ tail =
      (serializeIndex (tablesFrom w.bufferedOffset w.entries) ++
        (w.data ++ pre)) ++
      (subtableBytes (w.entries.getD b []) ++ (post ++ tail)) := by
    unfold contentBytes
    rw [hdec]
    simp [List.append_assoc]
  have hpref : (serializeIndex (tablesFrom w.bufferedOffset w.entries) ++
      (w.data ++ pre)).length =
      w.bufferedOffset + 16 * totalLen (w.entries.take b) := by
    rw [List.length_append, List.length_append, hsl, hplen, hinv.off]
    omega
  rw [hfile,
    show w.bufferedOffset + 16 * totalLen (w.entries.take b) + 8 * s =
      (serializeIndex (tablesFrom w.bufferedOffset w.entries) ++
        (w.data ++ pre)).length + 8 * s by rw [hpref],
    readTuple_append_right,
    readTuple_append_left _ _ _
      (by rw [length_subtableBytes]; omega)]
  unfold subtableBytes
  have hblocks := readTuple_blocks entry.hash entry.offset
    (placeEntries (2 * (w.entries.getD b []).length) (w.entries.getD b [])) s
    (by rw [length_placeEntries]; exact hs) default
  exact hblocks

theorem getLoop_reaches (c : CDB) (t : table) (hsh : Nat) (k v : List Nat)
    (m : Nat) (hm : t.length = m) (slotVal : Nat → entry)
    (Hread : ∀ s, s < m → readTuple c.reader ((t.offset + 8 * s) % u32) =
      ((slotVal s).hash, (slotVal s).offset))
    (Hval : ∀ s, s < m → (slotVal s).hash = hsh →
      c.getValueAt (slotVal s).offset k = none ∨
      c.getValueAt (slotVal s).offset k = some v)
    (hnz : hsh ≠ 0) (start : Nat) :
    ∀ j fuel slot, slot < m → j < fuel →
      (∀ i, i < j → (slotVal ((slot + i) % m)).hash ≠ 0) →
      (slotVal ((slot + j) % m)).hash = hsh →
      c.getValueAt (slotVal ((slot + j) % m)).offset k = some v →
      (∀ i, i < j → (slot + i + 1) % m ≠ start) →
      c.getLoop t hsh k start slot fuel = some (some v) := by
  intro j
  induction j with
  | zero =>
      intro fuel slot hslot hfuel _ hhit hval _
      cases fuel with
      | zero => omega
      | succ fuel =>
          rw [Nat.add_zero, Nat.mod_eq_of_lt hslot] at hhit hval
          rw [CDB.getLoop, Hread slot hslot]
          simp only
          rw [if_neg (by rw [hhit]; exact hnz)]
          rw [if_pos hhit, hval]
  | succ j ih =>
      intro fuel slot hslot hfuel hpath hhit hval hstart
      cases fuel with
      | zero => omega
      | succ fuel =>
          have hslot0 : (slotVal slot).hash ≠ 0 := by
            have := hpath 0 (Nat.succ_pos j)
            rwa [Nat.add_zero, Nat.mod_eq_of_lt hslot] at this
          have hm0 : 0 < m := by omega
          have hslot' : (slot + 1) % m < m := Nat.mod_lt _ hm0
          have hnext : ∀ P : Option (Option (List Nat)) → Prop,
              P (c.getLoop t hsh k start ((slot + 1) % m) fuel) →
              (∀ r, P r) → True := fun _ _ _ => trivial
          have hrec : c.getLoop t hsh k start ((slot + 1) % m) fuel =
              some (some v) := by
            apply ih fuel ((slot + 1) % m) hslot' (by omega)
            · intro i hi
              have := hpath (i + 1) (by omega)
              rwa [show slot + (i + 1) = slot + 1 + i by omega,
                ← Nat.mod_add_mod] at this
            · rw [Nat.mod_add_mod,
                show slot + 1 + j = slot + (j + 1) by omega]
              exact hhit
            · rw [Nat.mod_add_mod,
                show slot + 1 + j = slot + (j + 1) by omega]
              exact hval
            · intro i hi
              have hst := hstart (i + 1) (by omega)
              rw [Nat.add_assoc, Nat.mod_add_mod,
                show slot + 1 + (i + 1) = slot + (i + 1) + 1 by omega]
              exact hst
          rw [CDB.getLoop, Hread slot hslot]
          simp only
          rw [if_neg hslot0]
          have hadv : (slot + 1) % t.length = (slot + 1) % m := by rw [hm]
          by_cases hh : (slotVal slot).hash = hsh
          · rcases Hval slot hslot hh with hnone | hsome
            · rw [if_pos hh, hnone]
              simp only
              rw [hadv, if_neg (by
                have := hstart 0 (Nat.succ_pos j)
                rwa [Nat.add_zero] at this)]
              exact hrec
            · rw [if_pos hh, hsome]
          · rw [if_neg hh]
            simp only
            rw [hadv, if_neg (by
              have := hstart 0 (Nat.succ_pos j)
              rwa [Nat.add_zero] at this)]
            exact hrec

theorem getLoop_misses (c : CDB) (t : table) (hsh : Nat) (k : List Nat)
    (m : Nat) (hm : t.length = m) (slotVal : Nat → entry)
    (Hread : ∀ s, s < m → readTuple c.reader ((t.offset + 8 * s) % u32) =
      ((slotVal s).hash, (slotVal s).offset))
    (Hnone : ∀ s, s < m → (slotVal s).hash = hsh → (slotVal s).hash ≠ 0 →
      c.getValueAt (slotVal s).offset k = none)
    (start : Nat) :
    ∀ fuel slot, slot < m →
      c.getLoop t hsh k start slot fuel = some none ∨
      c.getLoop t hsh k start slot fuel = none := by
  intro fuel
  induction fuel with
  | zero => intro slot _; exact Or.inr rfl
  | succ fuel ih =>
      intro slot hslot
      have hm0 : 0 < m := by omega
      rw [CDB.getLoop, Hread slot hslot]
      simp only
      by_cases h0 : (slotVal slot).hash = 0
      · rw [if_pos h0]
        exact Or.inl rfl
      · rw [if_neg h0]
        have hbranch : (if (slotVal slot).hash = hsh
            then c.getValueAt (slotVal slot).offset k else none) = none := by
          by_cases hh : (slotVal slot).hash = hsh
          · rw [if_pos hh]
            exact Hnone slot hslot hh h0
          · rw [if_neg hh]
        rw [hbranch]
        simp only
        rw [show (slot + 1) % t.length = (slot + 1) % m by rw [hm]]
        by_cases hs : (slot + 1) % m = start
        · rw [if_pos hs]
          exact Or.inl rfl
        · rw [if_neg hs]
          exact ih ((slot + 1) % m) (Nat.mod_lt _ hm0)

theorem getLoop_total (c : CDB) (t : table) (hsh : Nat) (k : List Nat)
    (start : Nat) (hstart : start < t.length) :
    ∀ fuel slot, slot < t.length → probeDist t.length start slot ≤ fuel →
      (c.getLoop t hsh k start slot fuel).isSome = true := by
  intro fuel
  induction fuel with
  | zero =>
      intro slot hslot hdist
      unfold probeDist at hdist
      split at hdist <;> omega
  | succ fuel ih =>
      intro slot hslot hdist
      rw [CDB.getLoop]
      by_cases h0 : (readTuple c.reader ((t.offset + 8 * slot) % u32)).1 = 0
      · rw [if_pos h0]; rfl
      · rw [if_neg h0]
        cases hmatch : (if (readTuple c.reader ((t.offset + 8 * slot) % u32)).1 = hsh
            then c.getValueAt (readTuple c.reader ((t.offset + 8 * slot) % u32)).2 k
            else none) with
        | some v => simp [hmatch]
        | none =>
            simp only [hmatch]
            by_cases hs : (slot + 1) % t.length = start
            · rw [if_pos hs]; rfl
            · rw [if_neg hs]
              apply ih ((slot + 1) % t.length) (Nat.mod_lt _ (by omega))
              have hcase : (slot + 1) % t.length = slot + 1 ∧ slot + 1 < t.length ∨
                  (slot + 1) % t.length = 0 ∧ slot + 1 = t.length := by
                by_cases hlt : slot + 1 < t.length
                · exact Or.inl ⟨Nat.mod_eq_of_lt hlt, hlt⟩
                · have : slot + 1 = t.length := by omega
                  exact Or.inr ⟨by rw [this, Nat.mod_self], this⟩
              unfold probeDist at hdist ⊢
              rcases hcase with ⟨heq, hlt⟩ | ⟨heq, hlen⟩ <;> rw [heq] <;>
                split at hdist <;> split <;> omega

/-! ### Opening a finalized database -/

theorem readIndex_contentBytes (h : Hasher) (ps : List (List Nat × List Nat))
    (w : Writer) (hinv : Inv h ps w) (tail : List Nat) :
    readIndex (contentBytes w ++ tail) =
      tablesFrom w.bufferedOffset w.entries := by
  unfold contentBytes
  rw [List.append_assoc, List.append_assoc]
  apply readIndex_eq
  · rw [length_tablesFrom, hinv.elen]
  · exact tablesFrom_bounds w.entries w.bufferedOffset
      (inv_buckets_small h ps w hinv) (inv_off_bound h ps w hinv)

theorem open_finalized (sha : List Nat → List Nat) (h : Hasher)
    (ps : List (List Nat × List Nat)) (w : Writer) (hinv : Inv h ps w)
    (hsl : ∀ s, (sha s).length = 32) :
    openCDB sha (contentBytes w ++ sha (contentBytes w)) =
      .ok ⟨contentBytes w ++ sha (contentBytes w),
        tablesFrom w.bufferedOffset w.entries⟩ := by
  have hflen : (contentBytes w ++ sha (contentBytes w)).length =
      (contentBytes w).length + 32 := by
    rw [List.length_append, hsl]
  have hclen := length_contentBytes h ps w hinv
  have hoff := hinv.off
  unfold openCDB verifyChecksum
  rw [if_neg (by
    rw [hflen, hclen, hoff]
    simp only [indexSize]
    omega)]
  rw [show (contentBytes w ++ sha (contentBytes w)).length - 32 =
      (contentBytes w).length by omega]
  simp only [drop_exact, List.take_left, eq_self_iff_true, if_true]
  rw [readIndex_contentBytes h ps w hinv]

/-! ### Lookup correctness on a finalized database -/

theorem placeEntries_hash_small (h : Hasher) (ps : List (List Nat × List Nat))
    (w : Writer) (hinv : Inv h ps w) (Hh : ∀ bs, h bs < u32) (b : Nat)
    (m s : Nat) :
    ((placeEntries m (w.entries.getD b [])).getD s default).hash < u32 := by
  rcases placeEntries_sound m (w.entries.getD b []) s with hd | hmem
  · rw [hd, default_entry]
    simp [u32]
  · obtain ⟨kv, _, hh, _, _⟩ := hinv.sound b _ hmem
    rw [hh]
    exact Hh kv.1

theorem placeEntries_offset_small (h : Hasher) (ps : List (List Nat × List Nat))
    (w : Writer) (hinv : Inv h ps w) (b : Nat) (m s : Nat) :
    ((placeEntries m (w.entries.getD b [])).getD s default).offset ≤
      w.bufferedOffset := by
  rcases placeEntries_sound m (w.entries.getD b []) s with hd | hmem
  · rw [hd, default_entry]
    simp
  · obtain ⟨kv, _, _, _, hrec⟩ := hinv.sound b _ hmem
    have := RecordAt_bounds w.data _ kv.1 kv.2 hrec
    rw [hinv.off]
    omega

theorem getValueAt_entry (h : Hasher) (sha : List Nat → List Nat)
    (ps : List (List Nat × List Nat)) (w : Writer) (hinv : Inv h ps w)
    (q : List Nat) (off : Nat) (k v : List Nat)
    (hrec : RecordAt w.data off k v) :
    CDB.getValueAt ⟨contentBytes w ++ sha (contentBytes w),
        tablesFrom w.bufferedOffset w.entries⟩ off q =
      if q = k then some v else none := by
  obtain ⟨r, hdrop⟩ :=
    contentBytes_drop_record h ps w hinv (sha (contentBytes w)) off k v hrec
  have hbounds := RecordAt_bounds w.data off k v hrec
  have hB : indexSize + w.data.length ≤ maxUint32 := by
    rw [← hinv.off]
    have := hinv.bound
    omega
  apply getValueAt_of_record _ off k v q r hdrop
  · simp only [u32, maxUint32] at *
    omega
  · simp only [u32, maxUint32] at *
    omega
  · simp only [u32, maxUint32, indexSize] at *
    omega

theorem Get_found (h : Hasher) (sha : List Nat → List Nat)
    (ps : List (List Nat × List Nat)) (w : Writer) (hinv : Inv h ps w)
    (Hh : ∀ bs, h bs < u32) (k v : List Nat) (hmem : (k, v) ∈ ps)
    (huniq : ∀ v', (k, v') ∈ ps → v' = v) (hnz : h k ≠ 0) :
    CDB.Get h ⟨contentBytes w ++ sha (contentBytes w),
      tablesFrom w.bufferedOffset w.entries⟩ k = some v := by
  have hb : h k % 256 < 256 := Nat.mod_lt _ (by omega)
  have hblen : h k % 256 < w.entries.length := by rw [hinv.elen]; exact hb
  obtain ⟨e, he, hehash, herec⟩ := hinv.complete (k, v) hmem
  have hn : 0 < (w.entries.getD (h k % 256) []).length :=
    List.length_pos.mpr (List.ne_nil_of_mem he)
  have hm0 : 0 < 2 * (w.entries.getD (h k % 256) []).length := by omega
  have ht := tablesFrom_getD w.entries w.bufferedOffset (h k % 256) hblen
  have hoffbound : w.bufferedOffset + 16 * totalLen (w.entries.take (h k % 256)) +
      8 * (2 * (w.entries.getD (h k % 256) []).length) ≤ maxUint32 := by
    have h1 := totalLen_take_bucket_le w.entries (h k % 256) hblen
    have h2 := inv_off_bound h ps w hinv
    omega
  -- the slot values actually read back from the file
  have Hread : ∀ s, s < 2 * (w.entries.getD (h k % 256) []).length →
      readTuple (contentBytes w ++ sha (contentBytes w))
        ((w.bufferedOffset + 16 * totalLen (w.entries.take (h k % 256)) + 8 * s)
          % u32) =
      (((placeEntries (2 * (w.entries.getD (h k % 256) []).length)
          (w.entries.getD (h k % 256) [])).getD s default).hash % u32,
       ((placeEntries (2 * (w.entries.getD (h k % 256) []).length)
          (w.entries.getD (h k % 256) [])).getD s default).offset % u32) := by
    intro s hs
    rw [Nat.mod_eq_of_lt (by simp only [u32, maxUint32] at *; omega)]
    exact slot_read h ps w hinv (sha (contentBytes w)) (h k % 256) s hb hs
  -- candidate checks resolve to `none` or the written value
  have Hval : ∀ s, s < 2 * (w.entries.getD (h k % 256) []).length →
      (((placeEntries (2 * (w.entries.getD (h k % 256) []).length)
        (w.entries.getD (h k % 256) [])).getD s default).hash % u32 = h k) →
      CDB.getValueAt ⟨contentBytes w ++ sha (contentBytes w),
          tablesFrom w.bufferedOffset w.entries⟩
        (((placeEntries (2 * (w.entries.getD (h k % 256) []).length)
          (w.entries.getD (h k % 256) [])).getD s default).offset % u32) k =
        none ∨
      CDB.getValueAt ⟨contentBytes w ++ sha (contentBytes w),
          tablesFrom w.bufferedOffset w.entries⟩
        (((placeEntries (2 * (w.entries.getD (h k % 256) []).length)
          (w.entries.getD (h k % 256) [])).getD s default).offset % u32) k =
        some v := by
    intro s hs hhash
    rcases placeEntries_sound (2 * (w.entries.getD (h k % 256) []).length)
        (w.entries.getD (h k % 256) []) s with hd | hmem'
    · rw [hd, default_entry] at hhash
      simp only [u32] at hhash
      exact absurd hhash.symm hnz
    · obtain ⟨kv, hkv, hkvh, _, hkvrec⟩ := hinv.sound (h k % 256) _ hmem'
      have hoffid : ((placeEntries (2 * (w.entries.getD (h k % 256) []).length)
          (w.entries.getD (h k % 256) [])).getD s default).offset % u32 =
          ((placeEntries (2 * (w.entries.getD (h k % 256) []).length)
          (w.entries.getD (h k % 256) [])).getD s default).offset := by
        apply Nat.mod_eq_of_lt
        have := placeEntries_offset_small h ps w hinv (h k % 256)
          (2 * (w.entries.getD (h k % 256) []).length) s
        have := hinv.bound
        simp only [u32, maxUint32] at *
        omega
      rw [hoffid,
        getValueAt_entry h sha ps w hinv k _ kv.1 kv.2 hkvrec]
      by_cases hke : k = kv.1
      · right
        rw [if_pos hke]
        have hkvmem : (k, kv.2) ∈ ps := by
          rw [hke]
          exact hkv
        rw [huniq kv.2 hkvmem]
      · left
        rw [if_neg hke]
  -- where the queried entry actually sits
  obtain ⟨j, hj, hplaced, hpath⟩ :=
    placeEntries_placed (2 * (w.entries.getD (h k % 256) []).length)
      (w.entries.getD (h k % 256) []) e he
      (by rw [hehash]; exact hnz) (by omega)
  rw [hehash] at hplaced hpath
  have hloop := getLoop_reaches
    ⟨contentBytes w ++ sha (contentBytes w), tablesFrom w.bufferedOffset w.entries⟩
    ⟨w.bufferedOffset + 16 * totalLen (w.entries.take (h k % 256)),
      2 * (w.entries.getD (h k % 256) []).length⟩
    (h k) k v (2 * (w.entries.getD (h k % 256) []).length) rfl
    (fun s =>
      ⟨((placeEntries (2 * (w.entries.getD (h k % 256) []).length)
          (w.entries.getD (h k % 256) [])).getD s default).hash % u32,
       ((placeEntries (2 * (w.entries.getD (h k % 256) []).length)
          (w.entries.getD (h k % 256) [])).getD s default).offset % u32⟩)
    Hread Hval hnz ((h k >>> 8) % (2 * (w.entries.getD (h k % 256) []).length))
    j ((⟨w.bufferedOffset + 16 * totalLen (w.entries.take (h k % 256)),
      2 * (w.entries.getD (h k % 256) []).length⟩ : table).length)
    ((h k >>> 8) % (2 * (w.entries.getD (h k % 256) []).length))
    (Nat.mod_lt _ hm0) hj
    (by
      intro i hi
      have hraw := hpath i hi
      have hsmall := placeEntries_hash_small h ps w hinv Hh (h k % 256)
        (2 * (w.entries.getD (h k % 256) []).length)
        (((h k >>> 8) % (2 * (w.entries.getD (h k % 256) []).length) + i) %
          (2 * (w.entries.getD (h k % 256) []).length))
      show _ % u32 ≠ 0
      rw [Nat.mod_eq_of_lt hsmall]
      exact hraw)
    (by
      show _ % u32 = h k
      rw [hplaced, hehash, Nat.mod_eq_of_lt (Hh k)])
    (by
      show CDB.getValueAt _ (_ % u32) k = some v
      rw [hplaced]
      have hoffid : e.offset % u32 = e.offset := by
        apply Nat.mod_eq_of_lt
        have := RecordAt_bounds w.data e.offset k v herec
        have h2 := hinv.bound
        have h3 := hinv.off
        simp only [u32, maxUint32, indexSize] at *
        omega
      rw [hoffid, getValueAt_entry h sha ps w hinv k e.offset k v herec,
        if_pos rfl])
    (by
      intro i hi hcon
      have h0 : ((h k >>> 8) % (2 * (w.entries.getD (h k % 256) []).length) + 0) %
          (2 * (w.entries.getD (h k % 256) []).length) =
          (h k >>> 8) % (2 * (w.entries.getD (h k % 256) []).length) := by
        rw [Nat.add_zero]
        exact Nat.mod_eq_of_lt (Nat.mod_lt _ hm0)
      apply mod_window_inj (2 * (w.entries.getD (h k % 256) []).length)
        ((h k >>> 8) % (2 * (w.entries.getD (h k % 256) []).length)) 0 (i + 1)
        (by omega) (by omega)
      rw [h0, ← Nat.add_assoc]
      exact hcon.symm)
  unfold CDB.Get
  simp only [ht]
  rw [if_neg (show ¬(2 * (w.entries.getD (h k % 256) []).length) = 0 by omega)]
  rw [hloop]

theorem file_Hread (h : Hasher) (sha : List Nat → List Nat)
    (ps : List (List Nat × List Nat)) (w : Writer) (hinv : Inv h ps w)
    (b : Nat) (hb : b < 256) :
    ∀ s, s < 2 * (w.entries.getD b []).length →
      readTuple (contentBytes w ++ sha (contentBytes w))
        ((w.bufferedOffset + 16 * totalLen (w.entries.take b) + 8 * s) % u32) =
      (((placeEntries (2 * (w.entries.getD b []).length)
          (w.entries.getD b [])).getD s default).hash % u32,
       ((placeEntries (2 * (w.entries.getD b []).length)
          (w.entries.getD b [])).getD s default).offset % u32) := by
  intro s hs
  have hblen : b < w.entries.length := by rw [hinv.elen]; exact hb
  have hoffbound := totalLen_take_bucket_le w.entries b hblen
  have h2 := inv_off_bound h ps w hinv
  rw [Nat.mod_eq_of_lt (by simp only [u32, maxUint32] at *; omega)]
  exact slot_read h ps w hinv (sha (contentBytes w)) b s hb hs

theorem Get_none (h : Hasher) (sha : List Nat → List Nat)
    (ps : List (List Nat × List Nat)) (w : Writer) (hinv : Inv h ps w)
    (k : List Nat) (hnew : ∀ kv ∈ ps, kv.1 ≠ k) :
    CDB.Get h ⟨contentBytes w ++ sha (contentBytes w),
      tablesFrom w.bufferedOffset w.entries⟩ k = none := by
  have hb : h k % 256 < 256 := Nat.mod_lt _ (by omega)
  have hblen : h k % 256 < w.entries.length := by rw [hinv.elen]; exact hb
  have ht := tablesFrom_getD w.entries w.bufferedOffset (h k % 256) hblen
  by_cases hz : (w.entries.getD (h k % 256) []).length = 0
  · unfold CDB.Get
    simp only [ht]
    rw [if_pos (show (2 * (w.entries.getD (h k % 256) []).length) = 0 by omega)]
  · have hm0 : 0 < 2 * (w.entries.getD (h k % 256) []).length := by omega
    have Hnone : ∀ s, s < 2 * (w.entries.getD (h k % 256) []).length →
        (((placeEntries (2 * (w.entries.getD (h k % 256) []).length)
          (w.entries.getD (h k % 256) [])).getD s default).hash % u32 = h k) →
        (((placeEntries (2 * (w.entries.getD (h k % 256) []).length)
          (w.entries.getD (h k % 256) [])).getD s default).hash % u32 ≠ 0) →
        CDB.getValueAt ⟨contentBytes w ++ sha (contentBytes w),
            tablesFrom w.bufferedOffset w.entries⟩
          (((placeEntries (2 * (w.entries.getD (h k % 256) []).length)
            (w.entries.getD (h k % 256) [])).getD s default).offset % u32) k =
          none := by
      intro s hs hhash hnz0
      rcases placeEntries_sound (2 * (w.entries.getD (h k % 256) []).length)
          (w.entries.getD (h k % 256) []) s with hd | hmem'
      · rw [hd, default_entry] at hnz0
        simp [u32] at hnz0
      · obtain ⟨kv, hkv, hkvh, _, hkvrec⟩ := hinv.sound (h k % 256) _ hmem'
        have hoffid : ((placeEntries (2 * (w.entries.getD (h k % 256) []).length)
            (w.entries.getD (h k % 256) [])).getD s default).offset % u32 =
            ((placeEntries (2 * (w.entries.getD (h k % 256) []).length)
            (w.entries.getD (h k % 256) [])).getD s default).offset := by
          apply Nat.mod_eq_of_lt
          have := placeEntries_offset_small h ps w hinv (h k % 256)
            (2 * (w.entries.getD (h k % 256) []).length) s
          have := hinv.bound
          simp only [u32, maxUint32] at *
          omega
        rw [hoffid, getValueAt_entry h sha ps w hinv k _ kv.1 kv.2 hkvrec,
          if_neg (fun he => hnew kv hkv he.symm)]
    have hloop := getLoop_misses
      ⟨contentBytes w ++ sha (contentBytes w),
        tablesFrom w.bufferedOffset w.entries⟩
      ⟨w.bufferedOffset + 16 * totalLen (w.entries.take (h k % 256)),
        2 * (w.entries.getD (h k % 256) []).length⟩
      (h k) k (2 * (w.entries.getD (h k % 256) []).length) rfl
      (fun s =>
        ⟨((placeEntries (2 * (w.entries.getD (h k % 256) []).length)
            (w.entries.getD (h k % 256) [])).getD s default).hash % u32,
         ((placeEntries (2 * (w.entries.getD (h k % 256) []).length)
            (w.entries.getD (h k % 256) [])).getD s default).offset % u32⟩)
      (file_Hread h sha ps w hinv (h k % 256) hb) Hnone
      ((h k >>> 8) % (2 * (w.entries.getD (h k % 256) []).length))
      ((⟨w.bufferedOffset + 16 * totalLen (w.entries.take (h k % 256)),
        2 * (w.entries.getD (h k % 256) []).length⟩ : table).length)
      ((h k >>> 8) % (2 * (w.entries.getD (h k % 256) []).length))
      (Nat.mod_lt _ hm0)
    unfold CDB.Get
    simp only [ht]
    rw [if_neg (show ¬(2 * (w.entries.getD (h k % 256) []).length) = 0 by omega)]
    rcases hloop with hcase | hcase <;> rw [hcase]

/-! ### Claim theorems: round-trip and negative lookup -/

theorem Get_zero_hash (h : Hasher) (sha : List Nat → List Nat)
    (ps : List (List Nat × List Nat)) (w : Writer) (hinv : Inv h ps w)
    (k : List Nat) (hk : h k = 0) :
    CDB.Get h ⟨contentBytes w ++ sha (contentBytes w),
      tablesFrom w.bufferedOffset w.entries⟩ k = none := by
  have hb : h k % 256 < 256 := Nat.mod_lt _ (by omega)
  have hblen : h k % 256 < w.entries.length := by rw [hinv.elen]; exact hb
  have ht := tablesFrom_getD w.entries w.bufferedOffset (h k % 256) hblen
  by_cases hz : (w.entries.getD (h k % 256) []).length = 0
  · unfold CDB.Get
    simp only [ht]
    rw [if_pos (show (2 * (w.entries.getD (h k % 256) []).length) = 0 by omega)]
  · have hm0 : 0 < 2 * (w.entries.getD (h k % 256) []).length := by omega
    have hloop := getLoop_misses
      ⟨contentBytes w ++ sha (contentBytes w),
        tablesFrom w.bufferedOffset w.entries⟩
      ⟨w.bufferedOffset + 16 * totalLen (w.entries.take (h k % 256)),
        2 * (w.entries.getD (h k % 256) []).length⟩
      (h k) k (2 * (w.entries.getD (h k % 256) []).length) rfl
      (fun s =>
        ⟨((placeEntries (2 * (w.entries.getD (h k % 256) []).length)
            (w.entries.getD (h k % 256) [])).getD s default).hash % u32,
         ((placeEntries (2 * (w.entries.getD (h k % 256) []).length)
            (w.entries.getD (h k % 256) [])).getD s default).offset % u32⟩)
      (file_Hread h sha ps w hinv (h k % 256) hb)
      (fun s _ hh h0 => absurd (hh.trans hk) h0)
      ((h k >>> 8) % (2 * (w.entries.getD (h k % 256) []).length))
      ((⟨w.bufferedOffset + 16 * totalLen (w.entries.take (h k % 256)),
        2 * (w.entries.getD (h k % 256) []).length⟩ : table).length)
      ((h k >>> 8) % (2 * (w.entries.getD (h k % 256) []).length))
      (Nat.mod_lt _ hm0)
    unfold CDB.Get
    simp only [ht]
    rw [if_neg (show ¬(2 * (w.entries.getD (h k % 256) []).length) = 0 by omega)]
    rcases hloop with hcase | hcase <;> rw [hcase]

/-- C1 (amended): for every database built by successful `Put` calls and a
successful finalize, reopened with the same 32-bit hash function, `Get`
returns the written value byte-for-byte for every written key — provided
the key's hash is nonzero (a key hashing to 0 collides with the
empty-slot sentinel and is unreachable) and the key determines its value
uniquely among the written pairs (with duplicate keys "the written value"
is not well defined). -/
theorem c1_roundtrip (h : Hasher) (sha : List Nat → List Nat)
    (ps : List (List Nat × List Nat)) (w : Writer) (ts : List table)
    (f : List Nat) (k v : List Nat)
    (Hh : ∀ bs, h bs < u32) (hsl : ∀ s, (sha s).length = 32)
    (hput : putsAll h ps = .ok w) (hfin : w.finalize sha = .ok (ts, f))
    (hmem : (k, v) ∈ ps) (huniq : ∀ v', (k, v') ∈ ps → v' = v)
    (hnz : h k ≠ 0) :
    openCDB sha f = .ok ⟨f, readIndex f⟩ ∧
    CDB.Get h ⟨f, readIndex f⟩ k = some v := by
  have hinv := putsAll_inv h ps w hput
  have hfin' := finalize_inv sha h ps w hinv
  rw [hfin] at hfin'
  simp only [Except.ok.injEq, Prod.mk.injEq] at hfin'
  obtain ⟨hts, hf⟩ := hfin'
  subst hts
  subst hf
  constructor
  · rw [open_finalized sha h ps w hinv hsl,
      readIndex_contentBytes h ps w hinv]
  · rw [readIndex_contentBytes h ps w hinv]
    exact Get_found h sha ps w hinv Hh k v hmem huniq hnz

/-- Witness for C1's amended theorem at a concrete database: `[5] ↦ [7]`
written under `hW`, finalized, reopened, and looked up. -/
theorem c1_roundtrip_witness :
    putsAll hW psW = .ok wW ∧
    Writer.finalize shaZ wW =
      .ok (tablesFrom wW.bufferedOffset wW.entries,
        contentBytes wW ++ shaZ (contentBytes wW)) ∧
    openCDB shaZ (contentBytes wW ++ shaZ (contentBytes wW)) =
      .ok ⟨contentBytes wW ++ shaZ (contentBytes wW),
        readIndex (contentBytes wW ++ shaZ (contentBytes wW))⟩ ∧
    CDB.Get hW ⟨contentBytes wW ++ shaZ (contentBytes wW),
      readIndex (contentBytes wW ++ shaZ (contentBytes wW))⟩ [5] = some [7] := by
  have hput : putsAll hW psW = .ok wW := rfl
  have hinv := putsAll_inv hW psW wW hput
  have hfin : Writer.finalize shaZ wW =
      .ok (tablesFrom wW.bufferedOffset wW.entries,
        contentBytes wW ++ shaZ (contentBytes wW)) :=
    finalize_inv shaZ hW psW wW hinv
  have hc := c1_roundtrip hW shaZ psW wW
    (tablesFrom wW.bufferedOffset wW.entries)
    (contentBytes wW ++ shaZ (contentBytes wW)) [5] [7]
    (fun bs => by
      show bs.headD 0 % 251 + 1 < u32
      have := Nat.mod_lt (bs.headD 0) (show 0 < 251 by omega)
      simp only [u32]
      omega)
    (fun s => by simp [shaZ])
    hput hfin (by simp [psW])
    (by
      intro v' hv
      simp only [psW, List.mem_singleton, Prod.mk.injEq] at hv
      exact hv.2)
    (by decide)
  exact ⟨hput, hfin, hc.1, hc.2⟩

/-- Counterexample to C1 as stated: under the (legal, pluggable) hash
function mapping every key to 0, the database built from the single put
`[1] ↦ [2]` finalizes and reopens successfully, yet `Get [1]` returns the
not-found outcome instead of `[2]` — the record's hash entry is
indistinguishable from an empty slot. -/
theorem c1_roundtrip_cex :
    putsAll hZero [([1], [2])] = .ok wZ ∧
    Writer.finalize shaZ wZ =
      .ok (tablesFrom wZ.bufferedOffset wZ.entries,
        contentBytes wZ ++ shaZ (contentBytes wZ)) ∧
    openCDB shaZ (contentBytes wZ ++ shaZ (contentBytes wZ)) =
      .ok ⟨contentBytes wZ ++ shaZ (contentBytes wZ),
        readIndex (contentBytes wZ ++ shaZ (contentBytes wZ))⟩ ∧
    CDB.Get hZero ⟨contentBytes wZ ++ shaZ (contentBytes wZ),
      readIndex (contentBytes wZ ++ shaZ (contentBytes wZ))⟩ [1] = none ∧
    (none : Option (List Nat)) ≠ some [2] := by
  have hput : putsAll hZero [([1], [2])] = .ok wZ := rfl
  have hinv := putsAll_inv hZero [([1], [2])] wZ hput
  have hfin : Writer.finalize shaZ wZ =
      .ok (tablesFrom wZ.bufferedOffset wZ.entries,
        contentBytes wZ ++ shaZ (contentBytes wZ)) :=
    finalize_inv shaZ hZero [([1], [2])] wZ hinv
  refine ⟨hput, hfin, ?_, ?_, by simp⟩
  · rw [open_finalized shaZ hZero [([1], [2])] wZ hinv (fun s => by simp [shaZ])]
    rw [readIndex_contentBytes hZero [([1], [2])] wZ hinv]
  · rw [readIndex_contentBytes hZero [([1], [2])] wZ hinv]
    exact Get_zero_hash hZero shaZ [([1], [2])] wZ hinv [1] rfl

/-- C2: on a finalized and reopened database, looking up any key that was
never written returns the "not found" outcome (`nil` value, no error);
every probe either stops at an empty slot, completes a revolution, or
rejects candidates whose stored key differs. -/
theorem c2_negative_lookup (h : Hasher) (sha : List Nat → List Nat)
    (ps : List (List Nat × List Nat)) (w : Writer) (ts : List table)
    (f : List Nat) (k : List Nat)
    (hsl : ∀ s, (sha s).length = 32)
    (hput : putsAll h ps = .ok w) (hfin : w.finalize sha = .ok (ts, f))
    (hnew : ∀ kv ∈ ps, kv.1 ≠ k) :
    openCDB sha f = .ok ⟨f, readIndex f⟩ ∧
    CDB.Get h ⟨f, readIndex f⟩ k = none := by
  have hinv := putsAll_inv h ps w hput
  have hfin' := finalize_inv sha h ps w hinv
  rw [hfin] at hfin'
  simp only [Except.ok.injEq, Prod.mk.injEq] at hfin'
  obtain ⟨hts, hf⟩ := hfin'
  subst hts
  subst hf
  constructor
  · rw [open_finalized sha h ps w hinv hsl,
      readIndex_contentBytes h ps w hinv]
  · rw [readIndex_contentBytes h ps w hinv]
    exact Get_none h sha ps w hinv k hnew

/-- Witness for C2 at a concrete database: `[5] ↦ [7]` is written, and the
never-written key `[9]` reads back as not-found. -/
theorem c2_negative_lookup_witness :
    putsAll hW psW = .ok wW ∧
    Writer.finalize shaZ wW =
      .ok (tablesFrom wW.bufferedOffset wW.entries,
        contentBytes wW ++ shaZ (contentBytes wW)) ∧
    openCDB shaZ (contentBytes wW ++ shaZ (contentBytes wW)) =
      .ok ⟨contentBytes wW ++ shaZ (contentBytes wW),
        readIndex (contentBytes wW ++ shaZ (contentBytes wW))⟩ ∧
    CDB.Get hW ⟨contentBytes wW ++ shaZ (contentBytes wW),
      readIndex (contentBytes wW ++ shaZ (contentBytes wW))⟩ [9] = none := by
  have hput : putsAll hW psW = .ok wW := rfl
  have hinv := putsAll_inv hW psW wW hput
  have hfin : Writer.finalize shaZ wW =
      .ok (tablesFrom wW.bufferedOffset wW.entries,
        contentBytes wW ++ shaZ (contentBytes wW)) :=
    finalize_inv shaZ hW psW wW hinv
  have hc := c2_negative_lookup hW shaZ psW wW
    (tablesFrom wW.bufferedOffset wW.entries)
    (contentBytes wW ++ shaZ (contentBytes wW)) [9]
    (fun s => by simp [shaZ])
    hput hfin
    (by
      intro kv hkv
      simp only [psW, List.mem_singleton] at hkv
      rw [hkv]
      simp)
  exact ⟨hput, hfin, hc.1, hc.2⟩

/-! ### Claim theorems: guards, checksum, once-guard, probe termination -/

/-- C4: when the projected size `current_offset + 8 + len(key) + len(value)
+ estimated_footer_size + 16` exceeds `u32::MAX`, `Put` returns
`TooMuchData` before doing anything: the result is only the error value,
so no bytes are appended and the bucket lists, offset and footer counters
are unchanged. -/
theorem c4_put_guard (h : Hasher) (w : Writer) (key value : List Nat)
    (hg : w.bufferedOffset + (8 + key.length + value.length) +
      w.estimatedFooterSize + 16 > maxUint32) :
    Writer.Put h w key value = .error .tooMuchData := by
  unfold Writer.Put
  simp only
  rw [if_pos hg]

theorem c4_put_guard_witness :
    Writer.Put hW ⟨List.replicate 256 [], [], maxUint32, 0⟩ [] [] =
      .error .tooMuchData :=
  c4_put_guard hW ⟨List.replicate 256 [], [], maxUint32, 0⟩ [] []
    (by show maxUint32 + (8 + 0 + 0) + 0 + 16 > maxUint32; omega)

/-- C6: `Open` rejects a file shorter than 2080 bytes (2048-byte directory
plus 32-byte digest) as too small before any digest comparison; for larger
files it compares the recomputed digest of everything but the 32-byte
trailer against the trailer, failing with the corruption error on mismatch
and returning a reader (with the loaded directory) only on a match. -/
theorem c6_open_checksum (sha : List Nat → List Nat) (f : List Nat) :
    (f.length < 2080 → openCDB sha f = .error .tooSmall) ∧
    (2080 ≤ f.length →
      (f.drop (f.length - 32) ≠ sha (f.take (f.length - 32)) →
        openCDB sha f = .error .checksumMismatch) ∧
      (f.drop (f.length - 32) = sha (f.take (f.length - 32)) →
        openCDB sha f = .ok ⟨f, readIndex f⟩)) := by
  refine ⟨?_, fun hge => ⟨?_, ?_⟩⟩
  · intro hlt
    unfold openCDB verifyChecksum
    rw [if_pos (show f.length < indexSize + 32 from by
      simp only [indexSize]; omega)]
  · intro hne
    unfold openCDB verifyChecksum
    rw [if_neg (show ¬f.length < indexSize + 32 from by
      simp only [indexSize]; omega)]
    simp only [if_neg hne]
  · intro heq
    unfold openCDB verifyChecksum
    rw [if_neg (show ¬f.length < indexSize + 32 from by
      simp only [indexSize]; omega)]
    simp only [if_pos heq]

theorem c6_open_checksum_witness :
    (([] : List Nat).length < 2080 ∧ openCDB shaZ [] = .error .tooSmall) ∧
    (2080 ≤ (List.replicate 2080 (0 : Nat)).length ∧
      openCDB shaZ (List.replicate 2080 0) =
        .ok ⟨List.replicate 2080 0, readIndex (List.replicate 2080 0)⟩) ∧
    openCDB (fun _ => List.replicate 32 1) (List.replicate 2080 0) =
      .error .checksumMismatch := by
  have hlen : (List.replicate 2080 (0 : Nat)).length = 2080 :=
    List.length_replicate 2080 0
  have hdrop : (List.replicate 2080 (0 : Nat)).drop
      ((List.replicate 2080 (0 : Nat)).length - 32) = List.replicate 32 0 := by
    rw [hlen, List.drop_replicate]
  refine ⟨⟨by simp, (c6_open_checksum shaZ []).1 (by simp)⟩, ⟨by rw [hlen], ?_⟩, ?_⟩
  · exact ((c6_open_checksum shaZ (List.replicate 2080 0)).2
      (by rw [hlen])).2 (by rw [hdrop]; rfl)
  · apply ((c6_open_checksum (fun _ => List.replicate 32 1)
      (List.replicate 2080 0)).2 (by rw [hlen])).1
    rw [hdrop]
    simp

/-- C8: `Close` and `Freeze` both run `finalize` through the shared
`finalizeOnce` guard, so iterating the close/freeze state step any
positive number of times yields exactly the state of a single step
(`finalize` runs once and its stored result is reused); and the file a
successful finalize produces is the pre-digest content — directory,
records, sub-tables — followed by its digest appended exactly once. -/
theorem c8_finalize_once (sha : List Nat → List Nat) (w : Writer) (n : Nat) :
    (closeStep sha)^[n + 1] ⟨w, none⟩ = closeStep sha ⟨w, none⟩ ∧
    (∀ ts off subBytes,
      finalizeBuckets w.entries w.bufferedOffset = .ok (ts, off, subBytes) →
      w.finalize sha = .ok (ts,
        (serializeIndex ts ++ w.data ++ subBytes) ++
          sha (serializeIndex ts ++ w.data ++ subBytes))) := by
  constructor
  · induction n with
    | zero => rfl
    | succ n ih =>
        rw [Function.iterate_succ_apply', ih]
        rfl
  · intro ts off subBytes hfb
    unfold Writer.finalize
    rw [hfb]

theorem c8_finalize_once_witness :
    (closeStep shaZ)^[2] ⟨newWriter, none⟩ = closeStep shaZ ⟨newWriter, none⟩ ∧
    finalizeBuckets newWriter.entries newWriter.bufferedOffset =
      .ok (tablesFrom newWriter.bufferedOffset newWriter.entries,
        newWriter.bufferedOffset + 16 * totalLen newWriter.entries,
        subtablesBytes newWriter.entries) ∧
    Writer.finalize shaZ newWriter =
      .ok (tablesFrom newWriter.bufferedOffset newWriter.entries,
        (serializeIndex (tablesFrom newWriter.bufferedOffset newWriter.entries)
            ++ newWriter.data ++ subtablesBytes newWriter.entries) ++
          shaZ (serializeIndex
              (tablesFrom newWriter.bufferedOffset newWriter.entries)
            ++ newWriter.data ++ subtablesBytes newWriter.entries)) := by
  have hent : newWriter.entries = List.replicate 256 [] := rfl
  have hfb : finalizeBuckets newWriter.entries newWriter.bufferedOffset =
      .ok (tablesFrom newWriter.bufferedOffset newWriter.entries,
        newWriter.bufferedOffset + 16 * totalLen newWriter.entries,
        subtablesBytes newWriter.entries) := by
    have hoffeq : newWriter.bufferedOffset = indexSize := rfl
    apply finalizeBuckets_eq
    · intro b hb
      rw [hent] at hb
      rw [List.eq_of_mem_replicate hb]
      simp [u32]
    · rw [hoffeq]
      simp [indexSize, u32]
    · rw [hoffeq, hent, totalLen_replicate_nil]
      simp [indexSize, maxUint32]
  exact ⟨(c8_finalize_once shaZ newWriter 1).1, hfb,
    (c8_finalize_once shaZ newWriter 1).2 _ _ _ hfb⟩

theorem getLoop_zero_stop (c : CDB) (t : table) (hsh : Nat) (k : List Nat)
    (start slot fuel : Nat)
    (h0 : (readTuple c.reader ((t.offset + 8 * slot) % u32)).1 = 0) :
    c.getLoop t hsh k start slot (fuel + 1) = some none := by
  rw [CDB.getLoop]
  simp [h0]

/-- C9: for every reader, key and directory descriptor with
`table.length > 0`, the probe loop of `Get` finishes within `table.length`
slot examinations (the fuel `table.length` handed to it is never
exhausted; the loop stops with "not found" when the advancing slot index
returns to the start), and it stops immediately with "not found" at any
slot whose stored hash is 0. -/
theorem c9_probe_terminates (c : CDB) (t : table) (hsh : Nat) (k : List Nat)
    (start : Nat) (hstart : start < t.length) :
    (c.getLoop t hsh k start start t.length).isSome = true ∧
    (∀ slot fuel,
      (readTuple c.reader ((t.offset + 8 * slot) % u32)).1 = 0 →
      c.getLoop t hsh k start slot (fuel + 1) = some none) := by
  constructor
  · apply getLoop_total c t hsh k start hstart t.length start hstart
    unfold probeDist
    split <;> omega
  · intro slot fuel h0
    exact getLoop_zero_stop c t hsh k start slot fuel h0

theorem c9_probe_terminates_witness :
    (2 : Nat) < 5 ∧
    ((⟨[], []⟩ : CDB).getLoop ⟨0, 5⟩ 1 [] 2 2 5).isSome = true ∧
    (⟨[], []⟩ : CDB).getLoop ⟨0, 5⟩ 1 [] 2 3 (0 + 1) = some none := by
  refine ⟨by omega, ?_, ?_⟩
  · exact (c9_probe_terminates ⟨[], []⟩ ⟨0, 5⟩ 1 [] 2
      (show (2 : Nat) < 5 by omega)).1
  · exact (c9_probe_terminates ⟨[], []⟩ ⟨0, 5⟩ 1 [] 2
      (show (2 : Nat) < 5 by omega)).2 3 0 (by decide)

/-- C10: the placement loop of `finalize` treats a slot as occupied iff its
stored hash is nonzero: the probe stops at any slot whose hash is 0 (even
one where a hash-0 entry was placed) and skips past slots with nonzero
hash, and the chosen slot is overwritten outright.  Consequently in the
bucket `[⟨hash 0, offset 5⟩, ⟨hash 1024, offset 7⟩]` the second entry's
probe reaches the first entry's slot and overwrites it, so the record at
offset 5 is silently lost from the sub-table. -/
theorem c10_zero_hash_overwrite :
    (∀ (sorted : List entry) (m slot fuel : Nat),
      (sorted.getD slot default).hash = 0 →
      findSlot sorted m slot (fuel + 1) = some slot) ∧
    (∀ (sorted : List entry) (m slot fuel : Nat),
      (sorted.getD slot default).hash ≠ 0 →
      findSlot sorted m slot (fuel + 1) =
        findSlot sorted m ((slot + 1) % m) fuel) ∧
    (∀ (m : Nat) (sorted : List entry) (e : entry) (s : Nat),
      findSlot sorted m ((e.hash >>> 8) % m) m = some s →
      placeStep m sorted e = sorted.set s e) ∧
    placeEntries 4 [⟨0, 5⟩, ⟨1024, 7⟩] =
      [⟨1024, 7⟩, ⟨0, 0⟩, ⟨0, 0⟩, ⟨0, 0⟩] := by
  refine ⟨findSlot_here, findSlot_past, ?_, by decide⟩
  intro m sorted e s hf
  unfold placeStep
  rw [hf]

theorem c10_zero_hash_overwrite_witness :
    findSlot [⟨0, 5⟩, ⟨0, 0⟩] 2 0 (1 + 1) = some 0 ∧
    findSlot [⟨9, 5⟩, ⟨0, 0⟩] 2 0 (1 + 1) =
      findSlot [⟨9, 5⟩, ⟨0, 0⟩] 2 ((0 + 1) % 2) 1 ∧
    placeStep 4 [⟨0, 5⟩, ⟨0, 0⟩, ⟨0, 0⟩, ⟨0, 0⟩] ⟨1024, 7⟩ =
      [⟨0, 5⟩, ⟨0, 0⟩, ⟨0, 0⟩, ⟨0, 0⟩].set 0 ⟨1024, 7⟩ := by
  refine ⟨?_, ?_, ?_⟩
  · exact c10_zero_hash_overwrite.1 [⟨0, 5⟩, ⟨0, 0⟩] 2 0 1 (by decide)
  · exact c10_zero_hash_overwrite.2.1 [⟨9, 5⟩, ⟨0, 0⟩] 2 0 1 (by decide)
  · exact c10_zero_hash_overwrite.2.2.1 4 [⟨0, 5⟩, ⟨0, 0⟩, ⟨0, 0⟩, ⟨0, 0⟩]
      ⟨1024, 7⟩ 0 (by decide)

/-! ### The spec's description of placement coincides with the code -/

theorem find?_append_some {α : Type} (p : α → Bool) (l1 l2 : List α) (a : α)
    (h : l1.find? p = some a) : (l1 ++ l2).find? p = some a := by
  induction l1 with
  | nil => simp [List.find?] at h
  | cons x l1 ih =>
      cases hx : p x with
      | true =>
          rw [List.find?_cons_of_pos _ hx] at h
          rw [List.cons_append, List.find?_cons_of_pos _ hx]
          exact h
      | false =>
          rw [List.find?_cons_of_neg _ (by simp [hx])] at h
          rw [List.cons_append, List.find?_cons_of_neg _ (by simp [hx])]
          exact ih h

theorem find?_append_none {α : Type} (p : α → Bool) (l1 l2 : List α)
    (h : l1.find? p = none) : (l1 ++ l2).find? p = l2.find? p := by
  induction l1 with
  | nil => rfl
  | cons x l1 ih =>
      cases hx : p x with
      | true => rw [List.find?_cons_of_pos _ hx] at h; cases h
      | false =>
          rw [List.find?_cons_of_neg _ (by simp [hx])] at h
          rw [List.cons_append, List.find?_cons_of_neg _ (by simp [hx])]
          exact ih h

theorem find?_range_eq_some (p : Nat → Bool) :
    ∀ (m j : Nat), j < m → p j = true → (∀ i, i < j → p i = false) →
      List.find? p (List.range m) = some j := by
  intro m
  induction m with
  | zero => intro j hj; omega
  | succ m ih =>
      intro j hj hpj hmin
      rw [List.range_succ]
      by_cases hjm : j < m
      · exact find?_append_some p _ _ j (ih j hjm hpj hmin)
      · have hje : j = m := by omega
        subst hje
        rw [find?_append_none p _ _ (List.find?_eq_none.mpr fun i hi => by
          rw [hmin i (List.mem_range.mp hi)]
          simp)]
        rw [List.find?_cons_of_pos _ hpj]

theorem findSlot_eq_specFirstEmpty (sorted : List entry) (m slot : Nat)
    (hslot : slot < m) :
    findSlot sorted m slot m = specFirstEmpty sorted m slot := by
  cases hf : findSlot sorted m slot m with
  | some s =>
      obtain ⟨j, hj, hs, hpath⟩ := findSlot_path sorted m m slot s hslot hf
      have hempty := findSlot_empty_at sorted m m slot s hf
      unfold specFirstEmpty
      have hfind := find?_range_eq_some
        (fun j => (sorted.getD ((slot + j) % m) default).hash == 0) m j hj
        (beq_iff_eq.mpr (hs ▸ hempty))
        (fun i hi => beq_eq_false_iff_ne.mpr (hpath i hi))
      rw [hfind]
      simp only [Option.map_some']
      rw [hs]
  | none =>
      unfold specFirstEmpty
      rw [List.find?_eq_none.mpr ?_]
      · rfl
      · intro j hjmem hpj
        have hj : j < m := List.mem_range.mp hjmem
        obtain ⟨s, hs⟩ := findSlot_found sorted m m slot hslot
          ⟨j, hj, beq_iff_eq.mp (by simpa using hpj)⟩
        rw [hf] at hs
        cases hs

theorem placeEntries_eq_specPlace (m : Nat) (es : List entry)
    (hm : 0 < m ∨ es = []) :
    placeEntries m es = specPlace m es := by
  rcases hm with hm | hnil
  · have hstep : ∀ (sorted : List entry) (e : entry),
        placeStep m sorted e =
          match specFirstEmpty sorted m ((e.hash >>> 8) % m) with
          | some s => sorted.set s e
          | none => sorted := by
      intro sorted e
      unfold placeStep
      rw [findSlot_eq_specFirstEmpty sorted m _ (Nat.mod_lt _ hm)]
    unfold placeEntries specPlace
    generalize List.replicate m (default : entry) = init
    induction es generalizing init with
    | nil => rfl
    | cons e es ih =>
        rw [List.foldl_cons, List.foldl_cons, hstep]
        exact ih _
  · subst hnil
    rfl

/-- C3: at finalize, bucket `i` with `n` entries gets a sub-table of
exactly `m = 2n` slots built precisely as the spec words it (all slots
initially empty; each entry, in insertion order, placed at the first probe
position `(hash >> 8) mod m`, `(slot+1) mod m`, ... whose slot is empty);
the directory length is `m`, and the `m` slots are serialized to the file
in array order at consecutive 8-byte positions from the sub-table's
offset. -/
theorem c3_subtable_layout (h : Hasher) (sha : List Nat → List Nat)
    (ps : List (List Nat × List Nat)) (w : Writer) (ts : List table)
    (f : List Nat) (Hh : ∀ bs, h bs < u32)
    (hput : putsAll h ps = .ok w) (hfin : w.finalize sha = .ok (ts, f))
    (i : Nat) (hi : i < 256) :
    (placeEntries (2 * (w.entries.getD i []).length)
      (w.entries.getD i [])).length = 2 * (w.entries.getD i []).length ∧
    placeEntries (2 * (w.entries.getD i []).length) (w.entries.getD i []) =
      specPlace (2 * (w.entries.getD i []).length) (w.entries.getD i []) ∧
    (ts.getD i default).length = 2 * (w.entries.getD i []).length ∧
    (∀ s, s < 2 * (w.entries.getD i []).length →
      readTuple f ((ts.getD i default).offset + 8 * s) =
        (((placeEntries (2 * (w.entries.getD i []).length)
            (w.entries.getD i [])).getD s default).hash,
         ((placeEntries (2 * (w.entries.getD i []).length)
            (w.entries.getD i [])).getD s default).offset)) := by
  have hinv := putsAll_inv h ps w hput
  have hfin' := finalize_inv sha h ps w hinv
  rw [hfin] at hfin'
  simp only [Except.ok.injEq, Prod.mk.injEq] at hfin'
  obtain ⟨hts, hf⟩ := hfin'
  subst hts
  subst hf
  have hblen : i < w.entries.length := by rw [hinv.elen]; exact hi
  have ht := tablesFrom_getD w.entries w.bufferedOffset i hblen
  refine ⟨length_placeEntries _ _, ?_, ?_, ?_⟩
  · apply placeEntries_eq_specPlace
    by_cases hz : w.entries.getD i [] = []
    · exact Or.inr hz
    · left
      have : 0 < (w.entries.getD i []).length := List.length_pos.mpr hz
      omega
  · rw [ht]
  · intro s hs
    rw [ht]
    show readTuple _ (w.bufferedOffset + 16 * totalLen (w.entries.take i)
      + 8 * s) = _
    rw [slot_read h ps w hinv (sha (contentBytes w)) i s hi hs]
    have hhs := placeEntries_hash_small h ps w hinv Hh i
      (2 * (w.entries.getD i []).length) s
    have hos := placeEntries_offset_small h ps w hinv i
      (2 * (w.entries.getD i []).length) s
    have hob := hinv.bound
    rw [Nat.mod_eq_of_lt hhs,
      Nat.mod_eq_of_lt (by simp only [u32, maxUint32] at *; omega)]

/-- Witness for C3 at the concrete database `[5] ↦ [7]`, bucket 6. -/
theorem c3_subtable_layout_witness :
    putsAll hW psW = .ok wW ∧
    Writer.finalize shaZ wW =
      .ok (tablesFrom wW.bufferedOffset wW.entries,
        contentBytes wW ++ shaZ (contentBytes wW)) ∧
    placeEntries (2 * (wW.entries.getD 6 []).length) (wW.entries.getD 6 []) =
      specPlace (2 * (wW.entries.getD 6 []).length) (wW.entries.getD 6 []) ∧
    ((tablesFrom wW.bufferedOffset wW.entries).getD 6 default).length =
      2 * (wW.entries.getD 6 []).length := by
  have hput : putsAll hW psW = .ok wW := rfl
  have hinv := putsAll_inv hW psW wW hput
  have hfin : Writer.finalize shaZ wW =
      .ok (tablesFrom wW.bufferedOffset wW.entries,
        contentBytes wW ++ shaZ (contentBytes wW)) :=
    finalize_inv shaZ hW psW wW hinv
  have hc := c3_subtable_layout hW shaZ psW wW
    (tablesFrom wW.bufferedOffset wW.entries)
    (contentBytes wW ++ shaZ (contentBytes wW))
    (fun bs => by
      show bs.headD 0 % 251 + 1 < u32
      have := Nat.mod_lt (bs.headD 0) (show 0 < 251 by omega)
      simp only [u32]
      omega)
    hput hfin 6 (by omega)
  exact ⟨hput, hfin, hc.2.1, hc.2.2.1⟩

/-- C7: the directory written at finalize has exactly 256 entries; entry
`i` records length `2nᵢ` — zero exactly when bucket `i` held no entries —
and offset equal to the end of file at the moment bucket `i` is processed:
directory plus records plus all preceding sub-tables, laid out
back-to-back in ascending bucket order. -/
theorem c7_directory (h : Hasher) (sha : List Nat → List Nat)
    (ps : List (List Nat × List Nat)) (w : Writer) (ts : List table)
    (f : List Nat)
    (hput : putsAll h ps = .ok w) (hfin : w.finalize sha = .ok (ts, f)) :
    ts.length = 256 ∧
    ∀ i, i < 256 →
      ts.getD i default =
        ⟨w.bufferedOffset + 16 * totalLen (w.entries.take i),
          2 * (w.entries.getD i []).length⟩ ∧
      ((ts.getD i default).length = 0 ↔ w.entries.getD i [] = []) := by
  have hinv := putsAll_inv h ps w hput
  have hfin' := finalize_inv sha h ps w hinv
  rw [hfin] at hfin'
  simp only [Except.ok.injEq, Prod.mk.injEq] at hfin'
  obtain ⟨hts, hf⟩ := hfin'
  subst hts
  subst hf
  constructor
  · rw [length_tablesFrom, hinv.elen]
  · intro i hi
    have hblen : i < w.entries.length := by rw [hinv.elen]; exact hi
    have ht := tablesFrom_getD w.entries w.bufferedOffset i hblen
    refine ⟨ht, ?_⟩
    rw [ht]
    show 2 * (w.entries.getD i []).length = 0 ↔ w.entries.getD i [] = []
    constructor
    · intro h0
      exact List.length_eq_zero.mp (by omega)
    · intro hnil
      rw [hnil]
      rfl

/-- Witness for C7 at the concrete database `[5] ↦ [7]`. -/
theorem c7_directory_witness :
    putsAll hW psW = .ok wW ∧
    Writer.finalize shaZ wW =
      .ok (tablesFrom wW.bufferedOffset wW.entries,
        contentBytes wW ++ shaZ (contentBytes wW)) ∧
    (tablesFrom wW.bufferedOffset wW.entries).length = 256 ∧
    (((tablesFrom wW.bufferedOffset wW.entries).getD 0 default).length = 0 ↔
      wW.entries.getD 0 [] = []) := by
  have hput : putsAll hW psW = .ok wW := rfl
  have hinv := putsAll_inv hW psW wW hput
  have hfin : Writer.finalize shaZ wW =
      .ok (tablesFrom wW.bufferedOffset wW.entries,
        contentBytes wW ++ shaZ (contentBytes wW)) :=
    finalize_inv shaZ hW psW wW hinv
  have hc := c7_directory hW shaZ psW wW
    (tablesFrom wW.bufferedOffset wW.entries)
    (contentBytes wW ++ shaZ (contentBytes wW)) hput hfin
  exact ⟨hput, hfin, hc.1, (hc.2 0 (by omega)).2⟩

/-! ### Claim theorems: the 4 GiB size bound -/

/-- C5 (amended): for every sequence of successful `Put` calls, `finalize`
succeeds outright — the guard in `Put` reserves enough footer space that
the size check during sub-table writing can never fire — and the content
the 32-bit offsets address (directory, records, sub-tables) never exceeds
`u32::MAX`.  The total file, however, is that content plus the 32-byte
checksum trailer, so it can exceed `u32::MAX` by up to 32 bytes. -/
theorem c5_size_bound (h : Hasher) (sha : List Nat → List Nat)
    (ps : List (List Nat × List Nat)) (w : Writer)
    (hput : putsAll h ps = .ok w) (hsl : ∀ s, (sha s).length = 32) :
    w.finalize sha = .ok (tablesFrom w.bufferedOffset w.entries,
      contentBytes w ++ sha (contentBytes w)) ∧
    (contentBytes w).length ≤ maxUint32 ∧
    (contentBytes w ++ sha (contentBytes w)).length =
      (contentBytes w).length + 32 ∧
    (contentBytes w ++ sha (contentBytes w)).length ≤ maxUint32 + 32 := by
  have hinv := putsAll_inv h ps w hput
  have hc := length_contentBytes h ps w hinv
  have hb := inv_off_bound h ps w hinv
  refine ⟨finalize_inv sha h ps w hinv, by omega, ?_, ?_⟩
  · rw [List.length_append, hsl]
  · rw [List.length_append, hsl]
    omega

theorem c5_size_bound_witness :
    putsAll hW psW = .ok wW ∧
    Writer.finalize shaZ wW = .ok (tablesFrom wW.bufferedOffset wW.entries,
      contentBytes wW ++ shaZ (contentBytes wW)) ∧
    (contentBytes wW).length ≤ maxUint32 ∧
    (contentBytes wW ++ shaZ (contentBytes wW)).length ≤ maxUint32 + 32 := by
  have hput : putsAll hW psW = .ok wW := rfl
  have hc := c5_size_bound hW shaZ psW wW hput (fun s => by simp [shaZ])
  exact ⟨hput, hc.1, hc.2.1, hc.2.2.2⟩

/-- Counterexample to C5 as stated: one maximal `Put` succeeds with the
pre-checksum content exactly `u32::MAX` bytes, finalize succeeds, and the
resulting file — including the 32-byte checksum trailer the claim counts —
is `u32::MAX + 32 > u32::MAX` bytes long.  The guards bound only the
content, not the trailer. -/
theorem c5_size_bound_cex :
    putsAll hW ps5 = .ok w5 ∧
    Writer.finalize shaZ w5 = .ok (tablesFrom w5.bufferedOffset w5.entries,
      contentBytes w5 ++ shaZ (contentBytes w5)) ∧
    (contentBytes w5 ++ shaZ (contentBytes w5)).length = maxUint32 + 32 ∧
    maxUint32 < (contentBytes w5 ++ shaZ (contentBytes w5)).length := by
  have hvl : List.length vlarge = 4294965223 := List.length_replicate _ _
  have hoff : newWriter.bufferedOffset = 2048 := rfl
  have hfoot0 : newWriter.estimatedFooterSize = 0 := rfl
  have hguard : ¬(newWriter.bufferedOffset +
      (8 + List.length ([] : List Nat) + List.length vlarge) +
      newWriter.estimatedFooterSize + 16 > maxUint32) := by
    rw [hoff, hfoot0, hvl]
    simp only [List.length_nil, maxUint32]
    omega
  have hPut : Writer.Put hW newWriter [] vlarge = .ok w5 := by
    simp only [Writer.Put]
    rw [if_neg hguard]
    rw [show newWriter.bufferedOffset +
        (8 + List.length ([] : List Nat) + List.length vlarge) = 4294967279 by
      rw [hoff, hvl]
      simp only [List.length_nil]]
    rw [show newWriter.data = ([] : List Nat) from rfl, List.nil_append]
    rfl
  have hput : putsAll hW ps5 = .ok w5 := by
    unfold putsAll ps5
    rw [List.foldlM_cons, hPut]
    rfl
  have hinv := putsAll_inv hW ps5 w5 hput
  have htl : totalLen w5.entries = 1 := by
    have h16 : (16 : Nat) = 16 * totalLen w5.entries := hinv.foot
    omega
  have hc := length_contentBytes hW ps5 w5 hinv
  rw [htl] at hc
  have hflen : (contentBytes w5 ++ shaZ (contentBytes w5)).length =
      maxUint32 + 32 := by
    rw [List.length_append, hc]
    show w5.bufferedOffset + 16 * 1 + (List.replicate 32 0).length =
      maxUint32 + 32
    rw [List.length_replicate]
    show 4294967279 + 16 * 1 + 32 = maxUint32 + 32
    simp [maxUint32]
  exact ⟨hput, finalize_inv shaZ hW ps5 w5 hinv, hflen, by rw [hflen]; omega⟩

end GoCdb
